import Mathlib

/-!
Verification development for the `json_diff_c` library (src/src/json_diff.c,
src/src/myers.c).  The C code is shallowly embedded: cJSON value trees become
the inductive type `JVal`, C doubles become exact rationals, and the two
thread-local recursion-depth counters (`json_diff_depth`, `json_patch_depth`)
are threaded explicitly as state (functions take the counter value at entry
and return the counter value at exit alongside their result).

All recursive functions that mirror C recursion carry an explicit `fuel`
argument, used purely as a structural termination device; for every theorem
the fuel is either instantiated large enough at a concrete input or bounded
below by a hypothesis.  Behaviour with sufficient fuel matches the source.

cJSON itself is an external dependency (spec §1 lists parsing/printing and the
value model as external collaborators), so its primitives are modelled from
the spec: copies and reference wrappers are value-preserving (spec §3
"Lifecycle", §9 "Reference semantics in the source"); `cJSON_GetObjectItem`
is first-match key lookup (spec §4.A).  A separate provenance-annotated model
(`AVal`) tracks node sharing for the ownership claims.
-/

namespace JsonDiffC

/-- JSON value tree, mirroring the cJSON tagged union used by the source
(spec §3): Null, Bool, Number (C double, modelled as an exact rational),
String, Array, Object with insertion-ordered members. -/
inductive JVal : Type where
  | null
  | bool (b : Bool)
  | num (q : ℚ)
  | str (s : String)
  | arr (elems : List JVal)
  | obj (fields : List (String × JVal))

mutual
/-- Structural (mathematical) equality test on `JVal`, used to model C pointer
equality soundly: physically equal cJSON nodes are structurally equal values.
-/
def jBEq : JVal → JVal → Bool
  | .null, .null => true
  | .bool a, .bool b => a == b
  | .num a, .num b => a == b
  | .str a, .str b => a == b
  | .arr xs, .arr ys => jBEqArr xs ys
  | .obj fs, .obj gs => jBEqFl fs gs
  | _, _ => false
termination_by structural v => v

def jBEqArr : List JVal → List JVal → Bool
  | [], [] => true
  | x :: xs, y :: ys => jBEq x y && jBEqArr xs ys
  | _, _ => false
termination_by structural v => v

def jBEqFl : List (String × JVal) → List (String × JVal) → Bool
  | [], [] => true
  | (k, v) :: fs, (k', v') :: gs => k == k' && jBEq v v' && jBEqFl fs gs
  | _, _ => false
termination_by structural v => v
end

mutual
theorem jBEq_iff : ∀ a b : JVal, jBEq a b = true ↔ a = b
  | .null, b => by cases b <;> simp [jBEq]
  | .bool a, b => by cases b <;> simp [jBEq]
  | .num a, b => by cases b <;> simp [jBEq]
  | .str a, b => by cases b <;> simp [jBEq]
  | .arr xs, b => by
      cases b <;> simp [jBEq]
      exact jBEqArr_iff xs _
  | .obj fs, b => by
      cases b <;> simp [jBEq]
      exact jBEqFl_iff fs _
termination_by structural a => a

theorem jBEqArr_iff : ∀ xs ys : List JVal, jBEqArr xs ys = true ↔ xs = ys
  | [], ys => by cases ys <;> simp [jBEqArr]
  | x :: xs, ys => by
    cases ys with
    | nil => simp [jBEqArr]
    | cons y ys =>
      simp only [jBEqArr, Bool.and_eq_true, List.cons.injEq]
      rw [jBEq_iff, jBEqArr_iff]
termination_by structural xs => xs

theorem jBEqFl_iff :
    ∀ fs gs : List (String × JVal), jBEqFl fs gs = true ↔ fs = gs
  | [], gs => by cases gs <;> simp [jBEqFl]
  | (k, v) :: fs, gs => by
    cases gs with
    | nil => simp [jBEqFl]
    | cons g gs =>
      obtain ⟨k', v'⟩ := g
      rw [jBEqFl]
      simp [jBEq_iff v v', jBEqFl_iff fs gs, and_assoc]
termination_by structural fs => fs
end

instance : DecidableEq JVal := fun a b => decidable_of_iff _ (jBEq_iff a b)

/-- First-match object-member lookup; models `cJSON_GetObjectItem` per spec
§4.A (by-key lookup over the insertion-ordered member list). -/
def jlookup : List (String × JVal) → String → Option JVal
  | [], _ => none
  | (k, v) :: fs, key => if k = key then some v else jlookup fs key

/-- Loose-mode numeric comparison `fabs(l - r) < 1e-9` (spec §4.B), computed
exactly on the rational model of doubles by integer cross-multiplication:
`|a - b| < 1/10⁹  ↔  |a.num·b.den - b.num·a.den| · 10⁹ < a.den·b.den`. -/
def looseEqb (a b : ℚ) : Bool :=
  decide ((if a.num * (b.den : Int) - b.num * (a.den : Int) < 0 then
      -(a.num * (b.den : Int) - b.num * (a.den : Int))
    else a.num * (b.den : Int) - b.num * (a.den : Int)) * 1000000000 <
    (a.den : Int) * (b.den : Int))

mutual
/-- json_value_equal (src/src/json_diff.c:312): pointer-equality fast path
(`left == right`, src/src/json_diff.c:314-316, modelled as structural
equality `jBEq`, the same convention `do_json_diff` uses for its own
pointer fast path), then structural equality with a strict/loose switch for
numbers.  Numbers compare exactly under strict mode and with absolute
tolerance `1e-9` under loose mode; arrays compare by length and position;
objects compare by member count plus, for every left member, a first-match
lookup of the same key on the right.  Every recursive element/member
comparison in the C goes through json_value_equal and hence through the
fast path again, which this shape reproduces. -/
def json_value_equal (strict : Bool) : JVal → JVal → Bool
  | l, r =>
      if jBEq l r then true
      else
        match l, r with
        | .null, .null => true
        | .bool a, .bool b => a == b
        | .num a, .num b =>
            if strict then a == b else looseEqb a b
        | .str a, .str b => a == b
        | .arr xs, .arr ys => jeqArr strict xs ys
        | .obj fs, .obj gs => (fs.length == gs.length) && jeqFl strict fs gs
        | _, _ => false
termination_by structural v => v

def jeqArr (strict : Bool) : List JVal → List JVal → Bool
  | [], [] => true
  | x :: xs, y :: ys => json_value_equal strict x y && jeqArr strict xs ys
  | _, _ => false
termination_by structural v => v

def jeqFl (strict : Bool) :
    List (String × JVal) → List (String × JVal) → Bool
  | [], _ => true
  | (k, v) :: fs, gs =>
      (match jlookup gs k with
       | some w => json_value_equal strict v w
       | none => false) && jeqFl strict fs gs
termination_by structural v => v
end

/-- json_value_equal lifted to possibly-NULL cJSON pointers: two NULLs are
pointer-equal (`left == right` fast path), a NULL against a value is unequal
(src/src/json_diff.c:314-319). -/
def jeqOpt (strict : Bool) : Option JVal → Option JVal → Bool
  | none, none => true
  | some a, some b => json_value_equal strict a b
  | _, _ => false

end JsonDiffC

namespace JsonDiffC

/-- MAX_JSON_DEPTH (src/src/json_diff.c:16): recursion-depth guard limit. -/
def MAX_JSON_DEPTH : Nat := 1024

/-- INT_MAX bound used by every delta-key index parse. -/
def INT_MAX : Int := 2147483647

/-- C `(int)` cast of a double (truncation toward zero), used on the second
and third members of a candidate move entry; `Int.div` rounds toward zero. -/
def cIntOfRat (q : ℚ) : Int := Int.tdiv q.num q.den

/-- C `isspace` characters skipped by strtol in the "C" locale. -/
def isSpaceC (ch : Char) : Bool :=
  ch = ' ' || ch = '\t' || ch = '\n' ||
  ch = Char.ofNat 11 || ch = Char.ofNat 12 || ch = '\r'

/-- Leading-whitespace skip performed by strtol. -/
def dropWs : List Char → List Char
  | [] => []
  | c :: cs => if isSpaceC c then dropWs cs else c :: cs

/-- Digit-run accumulator for strtol (base 10). -/
def digitsAcc : List Char → Int → Int × List Char
  | [], acc => (acc, [])
  | c :: cs, acc =>
      if c.isDigit then digitsAcc cs (acc * 10 + ((c.toNat : Int) - 48))
      else (acc, c :: cs)

/-- strtol(nptr, endptr, 10) model: skip C whitespace, then an optional sign,
then a digit run.  Returns (value, digits-consumed flag, endptr suffix); when
no digits are consumed strtol leaves endptr at nptr and returns 0.  The
LONG_MAX/LONG_MIN overflow clamp is elided: every caller only tests the sign
and the INT_MAX bound, and a clamped value fails or passes those tests exactly
as the unclamped one does. -/
def strtol10 (s : List Char) : Int × Bool × List Char :=
  match dropWs s with
  | '-' :: rest =>
      (match rest with
       | c :: _ =>
           if c.isDigit then
             (match digitsAcc rest 0 with | (v, r) => (-v, true, r))
           else (0, false, s)
       | [] => (0, false, s))
  | '+' :: rest =>
      (match rest with
       | c :: _ =>
           if c.isDigit then
             (match digitsAcc rest 0 with | (v, r) => (v, true, r))
           else (0, false, s)
       | [] => (0, false, s))
  | c :: cs =>
      if c.isDigit then
        (match digitsAcc (c :: cs) 0 with | (v, r) => (v, true, r))
      else (0, false, s)
  | [] => (0, false, s)

/-- Full delta-key index parse as done at src/src/json_diff.c:941-944,
1096-1099, 966-969 and 112-114: strtol, then reject when no digits were
consumed (`endptr == key`), on trailing junk (`*endptr != '\0'`), on negative
values and on values above INT_MAX. -/
def parse_index (s : String) : Option Nat :=
  match strtol10 s.toList with
  | (v, consumed, rest) =>
      if consumed = true ∧ rest = [] ∧ 0 ≤ v ∧ v ≤ INT_MAX then some v.toNat
      else none

/-- Decimal key for an emitted index (snprintf "%d" on a non-negative int). -/
def idxKey (i : Nat) : String := toString i

/-- Underscored key for an emitted deletion index (snprintf "_%d"). -/
def delKey (i : Nat) : String := "_" ++ toString i

/-- create_change_array (src/src/json_diff.c:395): `[old, new]`.  The C code
embeds shallow clones (`clone_shallow`) of container inputs and fresh copies
of scalars; both are value-preserving, so at value level the inputs embed
unchanged.  Sharing is tracked by the annotated model below. -/
def create_change_array (old_val new_val : JVal) : JVal :=
  .arr [old_val, new_val]

/-- create_addition_array (src/src/json_diff.c:451): `[new]` with a
value-preserving shallow clone / copy of the input. -/
def create_addition_array (new_val : JVal) : JVal :=
  .arr [new_val]

/-- create_deletion_array (src/src/json_diff.c:486): `[old, 0, 0]` with a deep
copy (`cJSON_Duplicate`) of the input and two fresh zeros. -/
def create_deletion_array (old_val : JVal) : JVal :=
  .arr [old_val, .num 0, .num 0]

/-- Stable insert of one element into a list according to a Bool "may stay
before" relation: `x` goes before the first element `y` with `le y x = false`.
-/
def insBy {α : Type} (le : α → α → Bool) (x : α) : List α → List α
  | [] => [x]
  | y :: ys => if le y x then y :: insBy le x ys else x :: y :: ys

/-- Stable insertion sort; models the effect of the source's comparison sorts
(`qsort` over distinct keys at json_diff.c:68, the descending index bubble
sort at json_diff.c:1017-1025, the move insertion sort at 1040-1048). -/
def sortBy {α : Type} (le : α → α → Bool) : List α → List α
  | [] => []
  | x :: xs => insBy le x (sortBy le xs)

/-- strcmp on character lists: UTF-8 byte order coincides with code-point
order, so the lexicographic walk over the code points is strcmp's sign. -/
def strCmpL : List Char → List Char → Ordering
  | [], [] => .eq
  | [], _ :: _ => .lt
  | _ :: _, [] => .gt
  | a :: as, b :: bs =>
      if a < b then .lt else if b < a then .gt else strCmpL as bs

/-- strcmp sign (src/src/json_diff.c:46,80). -/
def cmpStr (a b : String) : Ordering := strCmpL a.data b.data

/-- `strcmp(a, b) <= 0`, the comparison used by the qsort model. -/
def strLe (a b : String) : Bool := decide (cmpStr a b ≠ .gt)

/-- build_key_index (src/src/json_diff.c:49): the member list of an object,
sorted by key with strcmp via qsort.  `qsort` is unstable, but every theorem
using the index assumes pairwise-distinct keys, for which the sorted
permutation is unique. -/
def build_key_index (fields : List (String × JVal)) : List (String × JVal) :=
  sortBy (fun a b => strLe a.1 b.1) fields

/-- index_get (src/src/json_diff.c:73): binary search by strcmp over the
sorted key index; `lo`/`hi` are the C ints, recursion is fueled (the wrapper
supplies `n + 1` fuel, enough for a halving search). -/
def index_get_go (arr : List (String × JVal)) (key : String) :
    Nat → Int → Int → Option JVal
  | 0, _, _ => none
  | fuel + 1, lo, hi =>
      if lo ≤ hi then
        match arr[(lo + (hi - lo) / 2).toNat]? with
        | none => none
        | some (k, v) =>
            match cmpStr key k with
            | .eq => some v
            | .lt => index_get_go arr key fuel lo ((lo + (hi - lo) / 2) - 1)
            | .gt => index_get_go arr key fuel ((lo + (hi - lo) / 2) + 1) hi
      else none

/-- index_get entry point: search the whole index. -/
def index_get (arr : List (String × JVal)) (key : String) : Option JVal :=
  index_get_go arr key (arr.length + 1) 0 ((arr.length : Int) - 1)

end JsonDiffC

namespace JsonDiffC

/-- Object recogniser (`cJSON_IsObject`). -/
def isObjV : JVal → Bool
  | .obj _ => true
  | _ => false

/-- Remove the first object member with the given key; models
`cJSON_DeleteItemFromObject` on a delta object whose keys the caller controls.
-/
def eraseKeyFirst : List (String × JVal) → String → List (String × JVal)
  | [], _ => []
  | (k, v) :: fs, key =>
      if k = key then fs else (k, v) :: eraseKeyFirst fs key

/-- Trailing emission of myers_diff_arrays (src/src/json_diff.c:663-694):
after the two-pointer walk stops, every remaining left element is emitted as a
deletion under its left index, then every remaining right element as an
addition; the addition keys continue from the left counter, which the deletion
loop has pushed to `left_size`. -/
def myersTrailing (xs ys : List JVal) (i j : Nat) : List (String × JVal) :=
  ((List.range (xs.length - i)).map
    (fun t => (delKey (i + t), create_deletion_array (xs.getD (i + t) .null))))
  ++ ((List.range (ys.length - j)).map
    (fun t =>
      (idxKey (xs.length + t), create_addition_array (ys.getD (j + t) .null))))

/-- Addition pass of the object differ (src/src/json_diff.c:808-819): every
key of the right index absent from the left index yields an addition entry, in
right-index (sorted) order. -/
def diffObjAdds (right_index left_index : List (String × JVal)) :
    List (String × JVal) :=
  right_index.filterMap (fun kv =>
    match index_get left_index kv.1 with
    | none => some (kv.1, create_addition_array kv.2)
    | some _ => none)

/-- Candidate-index collection of transform_array_object_changes
(src/src/json_diff.c:99-128): entries whose key does not begin with `_`, whose
value is a one-element array holding an object, and whose key parses as a
plain in-range index. -/
def collectTransformIdxs (entries : List (String × JVal)) : List Nat :=
  entries.filterMap (fun kv =>
    match kv.1.toList with
    | '_' :: _ => none
    | _ =>
        match kv.2 with
        | .arr [e] => if isObjV e then parse_index kv.1 else none
        | _ => none)

/-- Main walk of myers_diff_arrays (src/src/json_diff.c:559-661): on equal
elements advance both sides; lookahead deletion when `left[i+1] == right[j]`;
lookahead insertion when `left[i] == right[j+1]`; for mismatched object pairs
a nested json_diff keyed by the left counter; otherwise an addition/deletion
pair at the left counter; on exit, the trailing emission.  `diffF` is the
recursive json_diff reference (one fuel level below the enclosing call) and
threads the depth counter; `steps` is a structural iteration budget, always
instantiated with `xs.length + ys.length + 1`, which the walk — advancing a
cursor every round — never exhausts. -/
def myersLoop (diffF : Nat → JVal → JVal → Option JVal × Nat)
    (strict : Bool) (xs ys : List JVal) :
    Nat → Nat → Nat → Nat → List (String × JVal) × Nat
  | 0, st, _, _ => ([], st)
  | steps + 1, st, i, j =>
      match xs[i]?, ys[j]? with
      | some li, some rj =>
          if json_value_equal strict li rj then
            myersLoop diffF strict xs ys steps st (i + 1) (j + 1)
          else if (match xs[i + 1]? with
                   | some li1 => json_value_equal strict li1 rj
                   | none => false) then
            match myersLoop diffF strict xs ys steps st (i + 1) j with
            | (es, c') => ((delKey i, create_deletion_array li) :: es, c')
          else if (match ys[j + 1]? with
                   | some rj1 => json_value_equal strict li rj1
                   | none => false) then
            match myersLoop diffF strict xs ys steps st i (j + 1) with
            | (es, c') => ((idxKey i, create_addition_array rj) :: es, c')
          else if isObjV li && isObjV rj then
            match diffF st li rj with
            | (sub, c₁) =>
              match myersLoop diffF strict xs ys steps c₁ (i + 1) (j + 1) with
              | (es, c₂) =>
                (match sub with
                 | some d => ((idxKey i, d) :: es, c₂)
                 | none => (es, c₂))
          else
            match myersLoop diffF strict xs ys steps st (i + 1) (j + 1) with
            | (es, c') =>
              ((idxKey i, create_addition_array rj) ::
               (delKey i, create_deletion_array li) :: es, c')
      | _, _ => (myersTrailing xs ys i j, st)

/-- Merge loop of transform_array_object_changes (src/src/json_diff.c:130-168)
over the collected indices: re-fetch both entries, re-check their shapes
(one-element array holding an object; three-element array holding an object
and two numeric zeros), compute the nested diff, remove both entries and
append the nested diff when non-null. -/
def transformLoop (diffF : Nat → JVal → JVal → Option JVal × Nat) :
    Nat → List (String × JVal) → List Nat → List (String × JVal) × Nat
  | st, es, [] => (es, st)
  | st, es, i :: rest =>
      let keybuf := idxKey i
      let delbuf := delKey i
      match jlookup es keybuf, jlookup es delbuf with
      | some (.arr [newObj]), some (.arr [oldObj, .num z1, .num z2]) =>
          if isObjV newObj && isObjV oldObj && (z1 == 0) && (z2 == 0) then
            match diffF st oldObj newObj with
            | (nested, c₁) =>
              let es₂ := eraseKeyFirst (eraseKeyFirst es delbuf) keybuf
              let es₃ := match nested with
                | some d => es₂ ++ [(keybuf, d)]
                | none => es₂
              transformLoop diffF c₁ es₃ rest
          else transformLoop diffF st es rest
      | _, _ => transformLoop diffF st es rest

/-- transform_array_object_changes (src/src/json_diff.c:93 and its verbatim
copy src/src/myers.c:33): collect candidate indices, then merge each
`i → [obj]` / `_i → [obj, 0, 0]` pair into a nested diff appended under `i`
(or dropped when the nested diff is the sentinel). -/
def transform_array_object_changes (diffF : Nat → JVal → JVal → Option JVal × Nat)
    (st : Nat) (es : List (String × JVal)) : List (String × JVal) × Nat :=
  transformLoop diffF st es (collectTransformIdxs es)

/-- myers_diff_arrays (src/src/json_diff.c:530): despite its name, a linear
two-pointer walk with one-element lookahead.  Quick pairwise-equality exit;
main walk plus trailing emission; arrays-of-objects merge pass; `_t` marker
appended when a non-marker entry remains, else the sentinel. -/
def myers_diff_arrays (diffF : Nat → JVal → JVal → Option JVal × Nat)
    (st : Nat) (xs ys : List JVal) (strict : Bool) : Option JVal × Nat :=
  if jeqArr strict xs ys then (none, st)
  else
    match myersLoop diffF strict xs ys (xs.length + ys.length + 1) st 0 0 with
    | (es, c₁) =>
      if es.isEmpty then (none, c₁)
      else
        match transform_array_object_changes diffF c₁ es with
        | (es₂, c₂) =>
          if es₂.any (fun e => e.1 != "_t") then
            (some (.obj (es₂ ++ [("_t", .str "a")])), c₂)
          else (none, c₂)

/-- diff_arrays (src/src/json_diff.c:729): delegates to myers_diff_arrays. -/
def diff_arrays (diffF : Nat → JVal → JVal → Option JVal × Nat)
    (st : Nat) (xs ys : List JVal) (strict : Bool) : Option JVal × Nat :=
  myers_diff_arrays diffF st xs ys strict

/-- Deletion/sub-diff pass of the object differ (src/src/json_diff.c:788-807):
walk the sorted left index; keys absent from the right index yield deletion
entries, keys present on both sides yield the nested json_diff when
non-null. -/
def diffObjLeft (diffF : Nat → JVal → JVal → Option JVal × Nat) :
    Nat → List (String × JVal) → List (String × JVal) →
      List (String × JVal) × Nat
  | st, [], _ => ([], st)
  | st, (k, v) :: rest, ridx =>
      match index_get ridx k with
      | none =>
          (match diffObjLeft diffF st rest ridx with
           | (es, c') => ((k, create_deletion_array v) :: es, c'))
      | some w =>
          match diffF st v w with
          | (sd, c₁) =>
            match diffObjLeft diffF c₁ rest ridx with
            | (es, c₂) =>
              (match sd with
               | some d => ((k, d) :: es, c₂)
               | none => (es, c₂))

/-- do_json_diff (src/src/json_diff.c:743): increments the depth counter and
returns the sentinel — without decrementing — once past MAX_JSON_DEPTH; fast
path for pointer-equal (structurally identical) or equal values; change array
on type mismatch or non-containers; array and object branches; every
non-guard exit decrements the counter.  `diffF` is the recursive json_diff
reference used by the array and object branches. -/
def do_json_diff (diffF : Nat → JVal → JVal → Option JVal × Nat)
    (st : Nat) (l r : JVal) (strict : Bool) : Option JVal × Nat :=
  let c := st + 1
  if MAX_JSON_DEPTH < c then (none, c)
  else if jBEq l r || json_value_equal strict l r then (none, c - 1)
  else
    match l, r with
    | .arr xs, .arr ys =>
        (match diff_arrays diffF c xs ys strict with
         | (res, c₂) => (res, c₂ - 1))
    | .obj fs, .obj gs =>
        let right_index := build_key_index gs
        let left_index := build_key_index fs
        (match diffObjLeft diffF c left_index right_index with
         | (es₁, c₂) =>
            let es := es₁ ++ diffObjAdds right_index left_index
            (if es.isEmpty then none else some (.obj es), c₂ - 1))
    | _, _ => (some (create_change_array l r), c - 1)

/-- json_diff (src/src/json_diff.c:1207): public wrapper.  Increments the
thread-local diff depth counter, bails out (with a balancing decrement) past
MAX_JSON_DEPTH, runs do_json_diff — handing it itself, at one fuel level
less, as the recursive reference — then decrements.  The optional arena only
redirects allocation (spec §5) and is elided at value level.  Fuel bounds the
sub-call nesting depth only; since every nested call raises the counter and
the guard stops past 1024, any fuel beyond the counter headroom is enough. -/
def json_diff : Nat → Nat → JVal → JVal → Bool → Option JVal × Nat
  | 0, st, _, _, _ => (none, st)
  | fuel + 1, st, l, r, strict =>
      let c := st + 1
      if MAX_JSON_DEPTH < c then (none, c - 1)
      else
        match do_json_diff (fun st2 l2 r2 => json_diff fuel st2 l2 r2 strict)
            c l r strict with
        | (res, c') => (res, c' - 1)
termination_by structural fuel _ _ _ _ => fuel

end JsonDiffC

namespace JsonDiffC

/-- Test for `key[0] == '_'`. -/
def underscoreKey (k : String) : Bool :=
  match k.toList with
  | '_' :: _ => true
  | _ => false

/-- Move-op shape test applied while collecting deletion indices
(src/src/json_diff.c:976-986): a three-element array whose first member is a
string and whose third member is a number casting to 3 under `(int)`
truncation; the middle member is not inspected on this path. -/
def isMoveShape : JVal → Bool
  | .arr [v0, _, v2] =>
      (match v0, v2 with
       | .str _, .num t => decide (cIntOfRat t = 3)
       | _, _ => false)
  | _ => false

/-- Move-candidate shape accepted by the move-op collection
(src/src/json_diff.c:892-899): a three-element array `[string, number,
number]` whose third member casts to 3. -/
def isMoveCandidate : JVal → Bool
  | .arr [v0, v1, v2] =>
      (match v0, v1, v2 with
       | .str _, .num _, .num t => decide (cIntOfRat t = 3)
       | _, _, _ => false)
  | _ => false

/-- Replacement-pair scan of patch_array (src/src/json_diff.c:886-955, the
non-`_` half): indices of entries whose key parses as a plain in-range index
and whose value is a one-element array.  A deletion at the same index is later
dropped, turning the pair into a replacement. -/
def collectReplace (dfields : List (String × JVal)) : List Nat :=
  dfields.filterMap (fun kv =>
    if kv.1 == "_t" || underscoreKey kv.1 then none
    else
      match kv.2 with
      | .arr [_] => parse_index kv.1
      | _ => none)

/-- Move-op scan of patch_array (src/src/json_diff.c:890-936): `_`-prefixed
keys whose value is `[string, number, number]` with third member casting to 3;
the source index comes from strtol on the key tail with no endptr check (junk
suffixes and junk-only tails are accepted, the latter parsing as 0), bounded
to `0 ≤ s ≤ INT_MAX`. -/
def collectMoves (dfields : List (String × JVal)) : List (Nat × Int) :=
  dfields.filterMap (fun kv =>
    if kv.1 == "_t" then none
    else if underscoreKey kv.1 then
      match kv.2 with
      | .arr [.str _, .num d, .num t] =>
          if decide (cIntOfRat t = 3) then
            (match strtol10 ((kv.1.drop 1).toList) with
             | (s, _, _) =>
                if 0 ≤ s ∧ s ≤ INT_MAX then some (s.toNat, cIntOfRat d)
                else none)
          else none
      | _ => none
    else none)

/-- Deletion-index collection of patch_array (src/src/json_diff.c:962-1014):
`_`-prefixed non-marker keys whose tail passes the full index parse; entries
shaped like a move op (`[string, _, number≈3]`, second member unchecked here)
are skipped, as are indices that also occur as one-element additions
(replacement pairing).  Any other value shape counts as a deletion. -/
def collectDeletes (dfields : List (String × JVal)) (rep : List Nat) :
    List Nat :=
  dfields.filterMap (fun kv =>
    if underscoreKey kv.1 ∧ kv.1 ≠ "_t" then
      match parse_index (kv.1.drop 1) with
      | none => none
      | some idx =>
          if isMoveShape kv.2 then none
          else if idx ∈ rep then none
          else some idx
    else none)

/-- Descending sort of the deletion indices (src/src/json_diff.c:1017-1025).
-/
def sortDescNat (idxs : List Nat) : List Nat :=
  sortBy (fun a b => decide (b ≤ a)) idxs

/-- Ascending-by-destination stable sort of the move ops
(src/src/json_diff.c:1039-1048, an insertion sort). -/
def sortMovesByDest (mvs : List (Nat × Int)) : List (Nat × Int) :=
  sortBy (fun a b => decide (a.2 ≤ b.2)) mvs

/-- Deletion application (src/src/json_diff.c:1028-1033): each index is
removed when still in range of the shrinking working array.  Polymorphic in
the node type so the provenance-annotated model can reuse it verbatim. -/
def applyDeletions {α : Type} (w : List α) : List Nat → List α
  | [] => w
  | idx :: rest =>
      applyDeletions (if idx < w.length then w.eraseIdx idx else w) rest

/-- Move application (src/src/json_diff.c:1049-1082): for each (src, dest) in
destination order, fetch the source element from the pre-deletion original,
find the first element of the working array equal to it under
`json_value_equal(·, ·, true)` (the comparator is a parameter so the
annotated model can compare erased values), detach it, clamp a negative
destination to 0, and re-insert (appending when the destination is past the
end). -/
def applyMoves {α : Type} (eqf : α → α → Bool) (orig : List α) :
    List α → List (Nat × Int) → List α
  | w, [] => w
  | w, (src, dest) :: rest =>
      match orig[src]? with
      | none => applyMoves eqf orig w rest
      | some srcItem =>
          match w.findIdx? (fun cand => eqf cand srcItem) with
          | none => applyMoves eqf orig w rest
          | some cur =>
              match w[cur]? with
              | none => applyMoves eqf orig w rest
              | some node =>
                  let w' := w.eraseIdx cur
                  let d : Nat := (if dest < 0 then 0 else dest).toNat
                  applyMoves eqf orig
                    (if w'.length ≤ d then w' ++ [node]
                     else w'.take d ++ node :: w'.drop d) rest

/-- Addition / replacement / nested pass of patch_array
(src/src/json_diff.c:1086-1192): skip the marker, `_`-prefixed keys and keys
failing the index parse; a one-element array replaces in bounds and appends
past the end; a two-element array replaces in bounds and is dropped past the
end; other array shapes are ignored; any non-array value is a nested patch of
the in-bounds working element.  `patchF` is the recursive json_patch
reference and threads the depth counter. -/
def patchArrayAddStep (patchF : Nat → JVal → JVal → Option JVal × Nat)
    (st : Nat) (w : List JVal) (k : String) (v : JVal) : List JVal × Nat :=
  if k == "_t" || underscoreKey k then (w, st)
  else
    match parse_index k with
    | none => (w, st)
    | some idx =>
        match v with
        | .arr [e] =>
            ((if idx < w.length then w.set idx e else w ++ [e]), st)
        | .arr [_, e₁] =>
            ((if idx < w.length then w.set idx e₁ else w), st)
        | .arr _ => (w, st)
        | _ =>
            if idx < w.length then
              match w[idx]? with
              | none => (w, st)
              | some ov =>
                  match patchF st ov v with
                  | (some pv, c₁) => (w.set idx pv, c₁)
                  | (none, c₁) => (w, c₁)
            else (w, st)

/-- Entry walk of the pass above. -/
def patchArrayAddLoop (patchF : Nat → JVal → JVal → Option JVal × Nat) :
    Nat → List JVal → List (String × JVal) → List JVal × Nat
  | st, w, [] => (w, st)
  | st, w, (k, v) :: rest =>
      match patchArrayAddStep patchF st w k v with
      | (w', st') => patchArrayAddLoop patchF st' w' rest

/-- patch_array (src/src/json_diff.c:841): after the defensive one-element
array-wrapper unwrap (852-858; the not-an-array unwrap at 845-849 is
unreachable from json_patch, which dispatches here only for array bases),
work on a deep copy of the base: collect replacement indices and move ops,
collect and descending-sort the deletion indices, apply deletions, apply
moves, then walk the delta entries applying additions, replacements and
nested patches. -/
def patch_array (patchF : Nat → JVal → JVal → Option JVal × Nat)
    (st : Nat) (oelems : List JVal) (dfields : List (String × JVal)) :
    Option JVal × Nat :=
  let orig := match oelems with
    | [.arr inner] => inner
    | _ => oelems
  let rep := collectReplace dfields
  let w₁ := applyDeletions orig (sortDescNat (collectDeletes dfields rep))
  let w₂ := applyMoves (fun cand srcItem => json_value_equal true cand srcItem)
    orig w₁ (sortMovesByDest (collectMoves dfields))
  match patchArrayAddLoop patchF st w₂ dfields with
  | (w₃, c') => (some (.arr w₃), c')

/-- Object-delta application loop of json_patch (src/src/json_diff.c:1356-
1438) over a copy of the base's members: one-element array sets the member
(remove first match, append), three-element array removes it, two-element
array sets it to the second element, and any other value is a nested patch of
the existing member (reference wrappers are unwrapped value-preservingly);
missing members and null nested results leave the copy unchanged. -/
def patchObjLoop (patchF : Nat → JVal → JVal → Option JVal × Nat) :
    Nat → List (String × JVal) → List (String × JVal) →
      List (String × JVal) × Nat
  | st, res, [] => (res, st)
  | st, res, (k, v) :: rest =>
      match v with
      | .arr [e] =>
          patchObjLoop patchF st (eraseKeyFirst res k ++ [(k, e)]) rest
      | .arr [_, e₁] =>
          patchObjLoop patchF st (eraseKeyFirst res k ++ [(k, e₁)]) rest
      | .arr [_, _, _] => patchObjLoop patchF st (eraseKeyFirst res k) rest
      | .arr _ => patchObjLoop patchF st res rest
      | _ =>
          match jlookup res k with
          | none => patchObjLoop patchF st res rest
          | some ov =>
              match patchF st ov v with
              | (some pv, c₁) =>
                  patchObjLoop patchF c₁ (eraseKeyFirst res k ++ [(k, pv)]) rest
              | (none, c₁) => patchObjLoop patchF c₁ res rest

/-- json_patch (src/src/json_diff.c:1243): increments the thread-local patch
depth counter and returns the sentinel — without decrementing — past
MAX_JSON_DEPTH.  A two-element array delta returns a copy of its second
element (reference wrappers and the single-empty-key unwrap hack at
1256-1265 are value-preserving, spec §9).  Any other non-object delta returns
a copy of the base.  An object delta carrying `_t` dispatches to patch_array
for array bases and copies other bases.  All of these paths return directly,
skipping the `out:` decrement; only the plain-object-delta fall-through
decrements the counter on exit. -/
def json_patch : Nat → Nat → JVal → JVal → Option JVal × Nat
  | 0, st, _, _ => (none, st)
  | fuel + 1, st, orig, diff =>
      let c := st + 1
      if MAX_JSON_DEPTH < c then (none, c)
      else
        match diff with
        | .arr [_, newv] => (some newv, c)
        | .obj dfields =>
            if (jlookup dfields "_t").isSome then
              match orig with
              | .arr oelems =>
                  patch_array (fun st2 o2 d2 => json_patch fuel st2 o2 d2)
                    c oelems dfields
              | _ => (some orig, c)
            else
              (match patchObjLoop (fun st2 o2 d2 => json_patch fuel st2 o2 d2)
                  c (match orig with | .obj ofields => ofields | _ => [])
                  dfields with
               | (res, c') => (some (.obj res), c' - 1))
        | _ => (some orig, c)
termination_by structural fuel _ _ _ => fuel

end JsonDiffC

namespace JsonDiffC

/-- Longest equal prefix counter (src/src/myers.c:117-118). -/
def lcpLen (strict : Bool) : List JVal → List JVal → Nat
  | x :: xs, y :: ys =>
      if json_value_equal strict x y then lcpLen strict xs ys + 1 else 0
  | _, _ => 0

/-- Snake extension of the forward pass (src/src/myers.c:173): advance x and y
while both are inside the window and the elements compare equal. -/
def snakeExt (A2 B2 : List JVal) (strict : Bool) :
    Nat → Int → Int → Int × Int
  | 0, x, y => (x, y)
  | fuel + 1, x, y =>
      if x < (A2.length : Int) ∧ y < (B2.length : Int) ∧
          jeqOpt strict A2[x.toNat]? B2[y.toNat]? = true then
        snakeExt A2 B2 strict fuel (x + 1) (y + 1)
      else (x, y)

/-- Inner k-loop of the forward pass (src/src/myers.c:169-176): for each
diagonal `k` from `-d` to `d` in steps of two, choose the predecessor
diagonal, extend the snake, store the reached x in V, and stop (returning
true) once both window ends are reached. -/
def myersKLoop (A2 B2 : List JVal) (strict : Bool) (off : Nat) (d : Nat) :
    List Int → List Int → List Int × Bool
  | [], v => (v, false)
  | k :: ks, v =>
      let x0 : Int :=
        if k = -(d : Int) ∨
            (k ≠ (d : Int) ∧
              v.getD (k - 1 + off).toNat 0 < v.getD (k + 1 + off).toNat 0) then
          v.getD (k + 1 + off).toNat 0
        else v.getD (k - 1 + off).toNat 0 + 1
      match snakeExt A2 B2 strict (A2.length + B2.length + 1) x0 (x0 - k) with
      | (x, y) =>
        let v' := v.set (k + off).toNat x
        if (A2.length : Int) ≤ x ∧ (B2.length : Int) ≤ y then (v', true)
        else myersKLoop A2 B2 strict off d ks v'

/-- Outer d-loop of the forward pass (src/src/myers.c:165-178): snapshot V
into the trace before each round, run the k-loop, and stop at the first round
that reaches the far corner. -/
def myersDLoop (A2 B2 : List JVal) (strict : Bool) (off : Nat) :
    Nat → Nat → List Int → List (List Int) → List (List Int) × Option Nat
  | 0, _, _, trace => (trace, none)
  | fuel + 1, d, v, trace =>
      let trace' := trace ++ [v]
      let ks := (List.range (d + 1)).map (fun t => -(d : Int) + 2 * (t : Int))
      match myersKLoop A2 B2 strict off d ks v with
      | (_, true) => (trace', some d)
      | (v', false) => myersDLoop A2 B2 strict off fuel (d + 1) v' trace'

/-- Backtracking pass (src/src/myers.c:180-197): walk d from D_found down to
1 reading the stored V snapshots (`trace[d-1]`, exactly as the source indexes
them), emitting an equal-run segment when the snake had positive length and
then the single delete/insert segment; segments are type 0 equal / 1 insert /
2 delete with (a_start, b_start, len), collected in source push order (the
caller reverses). -/
def myersBacktrack (off : Nat) (trace : List (List Int)) :
    Nat → Int → Int → List (Nat × Int × Int × Int)
  | 0, _, _ => []
  | d + 1, x, y =>
      let dd : Int := (d : Int) + 1
      let vprev := trace.getD d []
      let k := x - y
      let prev_k :=
        if k = -dd ∨
            (k ≠ dd ∧
              vprev.getD (k - 1 + off).toNat 0 <
              vprev.getD (k + 1 + off).toNat 0) then k + 1
        else k - 1
      let x_prev := vprev.getD (prev_k + off).toNat 0
      let y_prev := x_prev - prev_k
      let isDel := prev_k = k + 1
      let x_mid := if isDel then x_prev + 1 else x_prev
      let y_mid := if isDel then y_prev else y_prev + 1
      let eq_len := x - x_mid
      ((if 0 < eq_len then [((0 : Nat), x_mid, y_mid, eq_len)] else []) ++
        [(if isDel then (2 : Nat) else 1, x_prev, y_prev, (1 : Int))]) ++
      myersBacktrack off trace d x_prev y_prev

/-- Deletion burst of the emission pass (src/src/myers.c:208-219 and the
trailing loop at 235): each step emits `_deletedCount → deletion(A2[ia])`
while `ia` is in range, and always advances deletedCount. -/
def emitDel (A2 : List JVal) :
    Nat → Nat → Nat → List (String × JVal) × Nat × Nat
  | 0, dc, ia => ([], dc, ia)
  | r + 1, dc, ia =>
      match A2[ia]? with
      | some a =>
          (match emitDel A2 r (dc + 1) (ia + 1) with
           | (es, dc', ia') =>
              ((delKey dc, create_deletion_array a) :: es, dc', ia'))
      | none =>
          (match emitDel A2 r (dc + 1) ia with
           | (es, dc', ia') => (es, dc', ia'))

/-- Insertion burst of the emission pass (src/src/myers.c:221-233 and the
trailing loop at 236). -/
def emitIns (B2 : List JVal) :
    Nat → Nat → Nat → List (String × JVal) × Nat × Nat
  | 0, cnt, ib => ([], cnt, ib)
  | r + 1, cnt, ib =>
      match B2[ib]? with
      | some b =>
          (match emitIns B2 r (cnt + 1) (ib + 1) with
           | (es, cnt', ib') =>
              ((idxKey cnt, create_addition_array b) :: es, cnt', ib'))
      | none =>
          (match emitIns B2 r (cnt + 1) ib with
           | (es, cnt', ib') => (es, cnt', ib'))

/-- Segment walk of the emission pass (src/src/myers.c:202-234): equal
segments are skipped without advancing any counter (the source's `continue`),
delete and insert segments emit bursts of their length. -/
def myersEmitSegs (A2 B2 : List JVal) :
    List (Nat × Int × Int × Int) → Nat → Nat → Nat → Nat →
      List (String × JVal) × Nat × Nat × Nat × Nat
  | [], cnt, dc, ia, ib => ([], cnt, dc, ia, ib)
  | (ty, _, _, len) :: segs, cnt, dc, ia, ib =>
      if ty = 2 then
        match emitDel A2 len.toNat dc ia with
        | (es, dc', ia') =>
          (match myersEmitSegs A2 B2 segs cnt dc' ia' ib with
           | (es₂, s) => (es ++ es₂, s))
      else if ty = 1 then
        match emitIns B2 len.toNat cnt ib with
        | (es, cnt', ib') =>
          (match myersEmitSegs A2 B2 segs cnt' dc ia ib' with
           | (es₂, s) => (es ++ es₂, s))
      else myersEmitSegs A2 B2 segs cnt dc ia ib

/-- json_myers_array_diff (src/src/myers.c:96): quick pairwise-equality exit,
head/tail trim, degenerate insert-only / delete-only branches, Myers forward
pass + backtrack + emission, arrays-of-objects merge pass, `_t` marker. -/
def json_myers_array_diff (fuel st : Nat) (xs ys : List JVal)
    (strict : Bool) : Option JVal × Nat :=
  if jeqArr strict xs ys then (none, st)
  else
    let N := xs.length
    let M := ys.length
    let lcp := lcpLen strict xs ys
    let lcs := lcpLen strict (xs.drop lcp).reverse (ys.drop lcp).reverse
    let N2 := N - lcp - lcs
    let M2 := M - lcp - lcs
    let A2 := (xs.drop lcp).take N2
    let B2 := (ys.drop lcp).take M2
    if N2 = 0 ∧ M2 = 0 then (none, st)
    else if N2 = 0 then
      let es := (List.range M2).map (fun r =>
        (idxKey (lcp + r), create_addition_array (B2.getD r .null)))
      match transform_array_object_changes
          (fun st2 a b => json_diff fuel st2 a b strict) st es with
      | (es₂, c₂) => (some (.obj (es₂ ++ [("_t", .str "a")])), c₂)
    else if M2 = 0 then
      let es := (List.range N2).map (fun r =>
        (delKey (lcp + r), create_deletion_array (A2.getD r .null)))
      match transform_array_object_changes
          (fun st2 a b => json_diff fuel st2 a b strict) st es with
      | (es₂, c₂) => (some (.obj (es₂ ++ [("_t", .str "a")])), c₂)
    else
      let off := N2 + M2
      let v0 : List Int := List.replicate (2 * (N2 + M2) + 1) 0
      match myersDLoop A2 B2 strict off (N2 + M2 + 1) 0 v0 [] with
      | (trace, dfound) =>
        let segs := match dfound with
          | some d => (myersBacktrack off trace d (N2 : Int) (M2 : Int)).reverse
          | none => []
        match myersEmitSegs A2 B2 segs lcp lcp 0 0 with
        | (es₀, cnt, dc, ia, ib) =>
          match emitDel A2 (N2 - ia) dc ia with
          | (esD, _, _) =>
            match emitIns B2 (M2 - ib) cnt ib with
            | (esA, _, _) =>
              match transform_array_object_changes
                  (fun st2 a b => json_diff fuel st2 a b strict) st
                  (es₀ ++ esD ++ esA) with
              | (es₂, c₂) =>
                if es₂.any (fun e => e.1 != "_t") then
                  (some (.obj (es₂ ++ [("_t", .str "a")])), c₂)
                else (none, c₂)

end JsonDiffC

namespace JsonDiffC

/-- Provenance-annotated value tree for the ownership claims: every node
carries `some id` when it is a node of one of the call's inputs and `none`
when it was freshly allocated by the call.  Values erase to `JVal`; node
sharing with an input is witnessed by an input id occurring in the result. -/
inductive AVal : Type where
  | null (src : Option Nat)
  | bool (src : Option Nat) (b : Bool)
  | num (src : Option Nat) (q : ℚ)
  | str (src : Option Nat) (s : String)
  | arr (src : Option Nat) (elems : List AVal)
  | obj (src : Option Nat) (fields : List (String × AVal))

mutual
/-- Forget the provenance annotations. -/
def erase : AVal → JVal
  | .null _ => .null
  | .bool _ b => .bool b
  | .num _ q => .num q
  | .str _ s => .str s
  | .arr _ es => .arr (eraseList es)
  | .obj _ fs => .obj (eraseFieldsV fs)
termination_by structural v => v

def eraseList : List AVal → List JVal
  | [] => []
  | e :: es => erase e :: eraseList es
termination_by structural v => v

def eraseFieldsV : List (String × AVal) → List (String × JVal)
  | [] => []
  | (k, v) :: fs => (k, erase v) :: eraseFieldsV fs
termination_by structural v => v
end

mutual
/-- All input-node ids occurring in a tree. -/
def aAddrs : AVal → List Nat
  | .null s => s.toList
  | .bool s _ => s.toList
  | .num s _ => s.toList
  | .str s _ => s.toList
  | .arr s es => s.toList ++ aAddrsList es
  | .obj s fs => s.toList ++ aAddrsFields fs
termination_by structural v => v

def aAddrsList : List AVal → List Nat
  | [] => []
  | e :: es => aAddrs e ++ aAddrsList es
termination_by structural v => v

def aAddrsFields : List (String × AVal) → List Nat
  | [] => []
  | (_, v) :: fs => aAddrs v ++ aAddrsFields fs
termination_by structural v => v
end

mutual
/-- Annotate a plain value with fresh pairwise-distinct node ids starting at
`n` (preorder); returns the next unused id. -/
def annot : JVal → Nat → AVal × Nat
  | .null, n => (.null (some n), n + 1)
  | .bool b, n => (.bool (some n) b, n + 1)
  | .num q, n => (.num (some n) q, n + 1)
  | .str s, n => (.str (some n) s, n + 1)
  | .arr es, n =>
      (match annotList es (n + 1) with
       | (es', n') => (.arr (some n) es', n'))
  | .obj fs, n =>
      (match annotFields fs (n + 1) with
       | (fs', n') => (.obj (some n) fs', n'))
termination_by structural v => v

def annotList : List JVal → Nat → List AVal × Nat
  | [], n => ([], n)
  | e :: es, n =>
      (match annot e n with
       | (e', n') =>
          match annotList es n' with
          | (es', n'') => (e' :: es', n''))
termination_by structural v => v

def annotFields : List (String × JVal) → Nat → List (String × AVal) × Nat
  | [], n => ([], n)
  | (k, v) :: fs, n =>
      (match annot v n with
       | (v', n') =>
          match annotFields fs n' with
          | (fs', n'') => ((k, v') :: fs', n''))
termination_by structural v => v
end

mutual
/-- cJSON_Duplicate(·, 1): a deep copy allocates every node afresh. -/
def aDup : AVal → AVal
  | .null _ => .null none
  | .bool _ b => .bool none b
  | .num _ q => .num none q
  | .str _ s => .str none s
  | .arr _ es => .arr none (aDupList es)
  | .obj _ fs => .obj none (aDupFields fs)
termination_by structural v => v

def aDupList : List AVal → List AVal
  | [] => []
  | e :: es => aDup e :: aDupList es
termination_by structural v => v

def aDupFields : List (String × AVal) → List (String × AVal)
  | [] => []
  | (k, v) :: fs => (k, aDup v) :: aDupFields fs
termination_by structural v => v
end

/-- cJSON_CreateObjectReference / cJSON_CreateArrayReference and the scalar
Create* copies, modelled from the spec (§9: reference nodes are
value-preserving shallow aliases into the input tree): a fresh top node whose
children are the input node's children, so every descendant below the top
still carries its input id. -/
def aRefCopy : AVal → AVal
  | .null _ => .null none
  | .bool _ b => .bool none b
  | .num _ q => .num none q
  | .str _ s => .str none s
  | .arr _ es => .arr none es
  | .obj _ fs => .obj none fs

/-- clone_shallow (src/src/json_diff.c:175): fresh container whose object and
array children become reference wrappers (sharing the grandchildren) and whose
scalar children are fresh copies; a scalar input is a fresh copy. -/
def aClone_shallow (v : AVal) : AVal :=
  match v with
  | .obj _ fs => .obj none (fs.map (fun kv => (kv.1, aRefCopy kv.2)))
  | .arr _ es => .arr none (es.map aRefCopy)
  | other => aRefCopy other

/-- create_change_array over annotated values (src/src/json_diff.c:395):
`[old, new]` with shallow clones of containers and fresh scalar copies —
`aClone_shallow` covers both. -/
def aCreate_change_array (old_val new_val : AVal) : AVal :=
  .arr none [aClone_shallow old_val, aClone_shallow new_val]

/-- create_addition_array over annotated values (src/src/json_diff.c:451). -/
def aCreate_addition_array (new_val : AVal) : AVal :=
  .arr none [aClone_shallow new_val]

/-- create_deletion_array over annotated values (src/src/json_diff.c:486):
the old value is deep-copied (`cJSON_Duplicate(old_val, 1)`), the zeros are
fresh. -/
def aCreate_deletion_array (old_val : AVal) : AVal :=
  .arr none [aDup old_val, .num none 0, .num none 0]

/-- Erase the values of a delta-entry list (the patch_array classification
passes read only keys and value shapes, so the annotated model hands them the
erased entries). -/
def eraseFields (dfields : List (String × AVal)) : List (String × JVal) :=
  dfields.map (fun kv => (kv.1, erase kv.2))

/-- First-match lookup on annotated member lists (`cJSON_GetObjectItem`). -/
def aLookup : List (String × AVal) → String → Option AVal
  | [], _ => none
  | (k, v) :: fs, key => if k = key then some v else aLookup fs key

/-- First-match removal on annotated member lists
(`cJSON_DeleteItemFromObject`). -/
def aEraseKeyFirst : List (String × AVal) → String → List (String × AVal)
  | [], _ => []
  | (k, v) :: fs, key =>
      if k = key then fs else (k, v) :: aEraseKeyFirst fs key

/-- Addition / replacement / nested pass of patch_array over annotated values
(src/src/json_diff.c:1086-1192); added and replacing elements are deep
copies. -/
def aPatchArrayAddLoop (patchF : Nat → AVal → AVal → Option AVal × Nat) :
    Nat → List AVal → List (String × AVal) → List AVal × Nat
  | st, w, [] => (w, st)
  | st, w, (k, v) :: rest =>
      if k == "_t" || underscoreKey k then aPatchArrayAddLoop patchF st w rest
      else
        match parse_index k with
        | none => aPatchArrayAddLoop patchF st w rest
        | some idx =>
            match v with
            | .arr _ [e] =>
                aPatchArrayAddLoop patchF st
                  (if idx < w.length then w.set idx (aDup e)
                   else w ++ [aDup e]) rest
            | .arr _ [_, e₁] =>
                aPatchArrayAddLoop patchF st
                  (if idx < w.length then w.set idx (aDup e₁) else w) rest
            | .arr _ _ => aPatchArrayAddLoop patchF st w rest
            | _ =>
                if idx < w.length then
                  match w[idx]? with
                  | none => aPatchArrayAddLoop patchF st w rest
                  | some ov =>
                      match patchF st ov v with
                      | (some pv, c₁) =>
                          aPatchArrayAddLoop patchF c₁ (w.set idx pv) rest
                      | (none, c₁) => aPatchArrayAddLoop patchF c₁ w rest
                else aPatchArrayAddLoop patchF st w rest

/-- patch_array over annotated values (src/src/json_diff.c:841): unwrap,
deep-copy the base into the working array, then the deletion / move /
addition phases with the same index collections (computed on the erased
entries, which carry identical keys and shapes). -/
def aPatch_array (patchF : Nat → AVal → AVal → Option AVal × Nat)
    (st : Nat) (oelems : List AVal) (dfields : List (String × AVal)) :
    Option AVal × Nat :=
  let orig := match oelems with
    | [.arr _ inner] => inner
    | _ => oelems
  let er := eraseFields dfields
  let rep := collectReplace er
  let w₀ := orig.map aDup
  let w₁ := applyDeletions w₀ (sortDescNat (collectDeletes er rep))
  let w₂ := applyMoves
    (fun cand srcItem => json_value_equal true (erase cand) (erase srcItem))
    orig w₁ (sortMovesByDest (collectMoves er))
  match aPatchArrayAddLoop patchF st w₂ dfields with
  | (w₃, c') => (some (.arr none w₃), c')

/-- Object-delta application loop over annotated values
(src/src/json_diff.c:1356-1438); additions and replacements embed deep
copies. -/
def aPatchObjLoop (patchF : Nat → AVal → AVal → Option AVal × Nat) :
    Nat → List (String × AVal) → List (String × AVal) →
      List (String × AVal) × Nat
  | st, res, [] => (res, st)
  | st, res, (k, v) :: rest =>
      match v with
      | .arr _ [e] =>
          aPatchObjLoop patchF st (aEraseKeyFirst res k ++ [(k, aDup e)]) rest
      | .arr _ [_, e₁] =>
          aPatchObjLoop patchF st (aEraseKeyFirst res k ++ [(k, aDup e₁)]) rest
      | .arr _ [_, _, _] => aPatchObjLoop patchF st (aEraseKeyFirst res k) rest
      | .arr _ _ => aPatchObjLoop patchF st res rest
      | _ =>
          match aLookup res k with
          | none => aPatchObjLoop patchF st res rest
          | some ov =>
              match patchF st ov v with
              | (some pv, c₁) =>
                  aPatchObjLoop patchF c₁ (aEraseKeyFirst res k ++ [(k, pv)])
                    rest
              | (none, c₁) => aPatchObjLoop patchF c₁ res rest

/-- json_patch over annotated values (src/src/json_diff.c:1243): identical
control flow to `json_patch`; copies are `aRefCopy` where the source creates
reference wrappers or scalar copies and `aDup` where it calls
cJSON_Duplicate. -/
def aJson_patch : Nat → Nat → AVal → AVal → Option AVal × Nat
  | 0, st, _, _ => (none, st)
  | fuel + 1, st, orig, diff =>
      let c := st + 1
      if MAX_JSON_DEPTH < c then (none, c)
      else
        match diff with
        | .arr _ [_, newv] => (some (aRefCopy newv), c)
        | .obj _ dfields =>
            if (jlookup (eraseFields dfields) "_t").isSome then
              match orig with
              | .arr _ oelems =>
                  aPatch_array (fun st2 o2 d2 => aJson_patch fuel st2 o2 d2)
                    c oelems dfields
              | _ => (some (aRefCopy orig), c)
            else
              (match aPatchObjLoop (fun st2 o2 d2 => aJson_patch fuel st2 o2 d2)
                  c (match orig with
                     | .obj _ ofields =>
                        ofields.map (fun kv => (kv.1, aRefCopy kv.2))
                     | _ => []) dfields with
               | (res, c') => (some (.obj none res), c' - 1))
        | _ => (some (aRefCopy orig), c)
termination_by structural fuel _ _ _ => fuel

end JsonDiffC

namespace JsonDiffC

theorem erase_aRefCopy (v : AVal) : erase (aRefCopy v) = erase v := by
  cases v <;> rfl

mutual
theorem erase_aDup : ∀ v : AVal, erase (aDup v) = erase v
  | .null _ => rfl
  | .bool _ _ => rfl
  | .num _ _ => rfl
  | .str _ _ => rfl
  | .arr _ es => by simp [aDup, erase, eraseList_aDupList es]
  | .obj _ fs => by simp [aDup, erase, eraseFieldsV_aDupFields fs]
termination_by structural v => v

theorem eraseList_aDupList : ∀ es, eraseList (aDupList es) = eraseList es
  | [] => rfl
  | e :: es => by
      simp [aDupList, eraseList, erase_aDup e, eraseList_aDupList es]
termination_by structural es => es

theorem eraseFieldsV_aDupFields :
    ∀ fs, eraseFieldsV (aDupFields fs) = eraseFieldsV fs
  | [] => rfl
  | (k, v) :: fs => by
      simp [aDupFields, eraseFieldsV, erase_aDup v, eraseFieldsV_aDupFields fs]
termination_by structural fs => fs
end

mutual
theorem aAddrs_aDup : ∀ v : AVal, aAddrs (aDup v) = []
  | .null _ => rfl
  | .bool _ _ => rfl
  | .num _ _ => rfl
  | .str _ _ => rfl
  | .arr _ es => by simp [aDup, aAddrs, aAddrsList_aDupList es]
  | .obj _ fs => by simp [aDup, aAddrs, aAddrsFields_aDupFields fs]
termination_by structural v => v

theorem aAddrsList_aDupList : ∀ es, aAddrsList (aDupList es) = []
  | [] => rfl
  | e :: es => by
      simp [aDupList, aAddrsList, aAddrs_aDup e, aAddrsList_aDupList es]
termination_by structural es => es

theorem aAddrsFields_aDupFields : ∀ fs, aAddrsFields (aDupFields fs) = []
  | [] => rfl
  | (k, v) :: fs => by
      simp [aDupFields, aAddrsFields, aAddrs_aDup v,
        aAddrsFields_aDupFields fs]
termination_by structural fs => fs
end

theorem eraseList_eq_map (es : List AVal) : eraseList es = es.map erase := by
  induction es with
  | nil => rfl
  | cons e es ih => simp [eraseList, ih]

theorem eraseFieldsV_eq_map (fs : List (String × AVal)) :
    eraseFieldsV fs = fs.map (fun kv => (kv.1, erase kv.2)) := by
  induction fs with
  | nil => rfl
  | cons kv fs ih => obtain ⟨k, v⟩ := kv; simp [eraseFieldsV, ih]

theorem erase_aClone_shallow (v : AVal) :
    erase (aClone_shallow v) = erase v := by
  cases v with
  | arr s es =>
      simp [aClone_shallow, erase, eraseList_eq_map, List.map_map,
        Function.comp, erase_aRefCopy]
  | obj s fs =>
      simp [aClone_shallow, erase, eraseFieldsV_eq_map, List.map_map,
        Function.comp, erase_aRefCopy]
  | null s => rfl
  | bool s b => rfl
  | num s q => rfl
  | str s t => rfl

/-- C10: when the delta passed to json_patch is a two-element change array
`[old, new]`, json_patch returns (a value-identical copy of) `new` for every
base value and every entry counter below the depth limit — neither the old
element of the change array nor the base is consulted or validated
(src/src/json_diff.c:1253-1277). -/
theorem C10_change_array_patch_returns_new (fuel st : Nat)
    (base old new_val : JVal) (h : st + 1 ≤ MAX_JSON_DEPTH) :
    (json_patch (fuel + 1) st base (.arr [old, new_val])).1 = some new_val := by
  simp [json_patch, Nat.not_lt.mpr h]

/-- Witness for C10 at a concrete input: base "base", delta [0, 7]. -/
theorem C10_change_array_patch_returns_new_witness :
    0 + 1 ≤ MAX_JSON_DEPTH ∧
      (json_patch (0 + 1) 0 (.str "base") (.arr [.num 0, .num 7])).1 =
        some (.num 7) :=
  ⟨by decide, C10_change_array_patch_returns_new 0 0 _ _ _ (by decide)⟩

/-- C6 (code bug): json_patch applied at entry counter 0 to the change delta
`[1, 2]` exits with the thread-local patch depth counter at 1, not 0 — the
early return of the change branch (src/src/json_diff.c:1271) skips the
decrement at the `out:` label, so the counter is not restored on this exit
path, contradicting the claim (and spec §4.H, which says the guard MUST be
decremented on every exit path). -/
theorem C6_patch_depth_counter_leaks :
    (json_patch 4 0 (.num 1) (.arr [.num 1, .num 2])).2 = 1 ∧ (1 : Nat) ≠ 0 :=
  by decide

/-- C1 (code bug): for L = [1,2,3] and R = [3,1,2], json_diff yields
`{"0":[3],"_2":[3,0,0],"_t":"a"}` (insert 3 at output position 0, delete left
index 2), but json_patch applies the in-bounds addition as a replacement
(src/src/json_diff.c:1131-1137), producing [3,2]; so
`patch(L, diff(L, R)) ≡ R` under loose equality fails. -/
theorem C1_roundtrip_fails_on_rotation :
    (json_diff 100 0 (.arr [.num 1, .num 2, .num 3])
        (.arr [.num 3, .num 1, .num 2]) true).1 =
      some (.obj [("0", .arr [.num 3]),
                  ("_2", .arr [.num 3, .num 0, .num 0]), ("_t", .str "a")]) ∧
    (json_patch 100 0 (.arr [.num 1, .num 2, .num 3])
        (.obj [("0", .arr [.num 3]),
               ("_2", .arr [.num 3, .num 0, .num 0]), ("_t", .str "a")])).1 =
      some (.arr [.num 3, .num 2]) ∧
    json_value_equal false (.arr [.num 3, .num 2])
      (.arr [.num 3, .num 1, .num 2]) = false := by decide

/-- C3 (code bug): on [1,2] vs [2,3] the shipped array differ
(diff_arrays = myers_diff_arrays, instantiated with json_diff as its
recursive reference exactly as do_json_diff does) yields
`{"_0":[1,0,0],"2":[3],"_t":"a"}`, while json_myers_array_diff yields the
full dump `{"_0":[1,0,0],"0":[2],"_1":[2,0,0],"1":[3],"_t":"a"}` — its
emission pass (src/src/myers.c:205-207) skips equal segments without
advancing any counter, so the trailing loops re-emit every window element.
The two differs are not extensionally equal, even up to member order. -/
theorem C3_array_differs_disagree :
    (diff_arrays (fun st2 a b => json_diff 99 st2 a b true) 0
        [.num 1, .num 2] [.num 2, .num 3] true).1 =
      some (.obj [("_0", .arr [.num 1, .num 0, .num 0]),
                  ("2", .arr [.num 3]), ("_t", .str "a")]) ∧
    (json_myers_array_diff 100 0 [.num 1, .num 2] [.num 2, .num 3] true).1 =
      some (.obj [("_0", .arr [.num 1, .num 0, .num 0]), ("0", .arr [.num 2]),
                  ("_1", .arr [.num 2, .num 0, .num 0]), ("1", .arr [.num 3]),
                  ("_t", .str "a")]) ∧
    jeqOpt true
      (diff_arrays (fun st2 a b => json_diff 99 st2 a b true) 0
        [.num 1, .num 2] [.num 2, .num 3] true).1
      (json_myers_array_diff 100 0 [.num 1, .num 2] [.num 2, .num 3] true).1
      = false := by decide

/-- C5 (code bug): patching base `{"x":1}` with the change delta
`[0, {"a":1}]` (inputs annotated with preorder node ids, base 0..1, delta
2..5) returns a reference wrapper around the delta's object: node 5 (the
`"a"` member of the delta's new value) occurs in the result, which therefore
shares nodes with the delta instead of being a fresh deep copy — exactly the
reference leak spec §9 describes while mandating owned results. -/
theorem C5_patch_result_aliases_delta :
    5 ∈ aAddrs ((aJson_patch 10 0 (annot (.obj [("x", .num 1)]) 0).1
        (annot (.arr [.num 0, .obj [("a", .num 1)]]) 2).1).1.getD (.null none))
      ∧
    5 ∈ aAddrs (annot (.arr [.num 0, .obj [("a", .num 1)]]) 2).1 := by decide

/-- C9 counterexample: create_addition_array embeds a shallow clone, not a
full copy — for input `{"a":{"b":1}}` (annotated preorder ids 0..2) the
embedded element still contains input node 2 (the `"b": 1` member reached
through the cJSON_CreateObjectReference child at src/src/json_diff.c:186),
contradicting "every embedded element is a copy sharing no node with the
input values". -/
theorem C9_addition_embeds_shared_nodes :
    2 ∈ aAddrs (aCreate_addition_array
        (annot (.obj [("a", .obj [("b", .num 1)])]) 0).1) ∧
    2 ∈ aAddrs (annot (.obj [("a", .obj [("b", .num 1)])]) 0).1 := by decide

/-- C9 amended: the three delta primitives produce exactly the claimed value
shapes — `[new]`, `[old, new]`, `[old, 0, 0]` — and the deletion primitive's
embedded element is a full deep copy sharing no node with its input; the
addition and change primitives embed value-preserving shallow clones, whose
object and array children alias the inputs' descendants (see the
counterexample). -/
theorem C9_delta_primitives_shapes_and_ownership (u v : AVal) :
    erase (aCreate_addition_array v) = .arr [erase v] ∧
    erase (aCreate_change_array u v) = .arr [erase u, erase v] ∧
    erase (aCreate_deletion_array v) = .arr [erase v, .num 0, .num 0] ∧
    aAddrs (aCreate_deletion_array v) = [] := by
  refine ⟨?_, ?_, ?_, ?_⟩
  · simp [aCreate_addition_array, erase, eraseList, erase_aClone_shallow]
  · simp [aCreate_change_array, erase, eraseList, erase_aClone_shallow]
  · simp [aCreate_deletion_array, erase, eraseList, erase_aDup]
  · simp [aCreate_deletion_array, aAddrs, aAddrsList, aAddrs_aDup]

end JsonDiffC

namespace JsonDiffC

theorem insBy_perm {α : Type} (le : α → α → Bool) (x : α) :
    ∀ l : List α, List.Perm (insBy le x l) (x :: l)
  | [] => List.Perm.refl _
  | y :: ys => by
      rw [insBy]
      by_cases h : le y x = true
      · rw [if_pos h]
        exact ((insBy_perm le x ys).cons y).trans (List.Perm.swap x y ys)
      · rw [if_neg h]

theorem sortBy_perm {α : Type} (le : α → α → Bool) :
    ∀ l : List α, List.Perm (sortBy le l) l
  | [] => List.Perm.refl _
  | x :: xs => (insBy_perm le x _).trans ((sortBy_perm le xs).cons x)

theorem insBy_desc_sorted (x : Nat) :
    ∀ l : List Nat, l.Sorted (· ≥ ·) →
      (insBy (fun a b => decide (b ≤ a)) x l).Sorted (· ≥ ·)
  | [], _ => by simp [insBy]
  | y :: ys, h => by
      rw [List.sorted_cons] at h
      rw [insBy]
      by_cases hle : decide (x ≤ y) = true
      · rw [if_pos hle]
        have hxy : x ≤ y := of_decide_eq_true hle
        rw [List.sorted_cons]
        refine ⟨?_, insBy_desc_sorted x ys h.2⟩
        intro b hb
        rcases List.mem_cons.mp (((insBy_perm _ x ys).mem_iff).mp hb) with
          hb' | hb'
        · exact hb' ▸ hxy
        · exact h.1 b hb'
      · rw [if_neg hle]
        have hyx : y ≤ x := Nat.le_of_not_le (fun hc => hle (decide_eq_true hc))
        rw [List.sorted_cons]
        refine ⟨?_, List.sorted_cons.mpr h⟩
        intro b hb
        rcases List.mem_cons.mp hb with hb' | hb'
        · exact hb' ▸ hyx
        · exact le_trans (h.1 b hb') hyx

theorem sortDescNat_sorted (l : List Nat) :
    (sortDescNat l).Sorted (· ≥ ·) := by
  induction l with
  | nil => simp [sortDescNat, sortBy]
  | cons x xs ih => exact insBy_desc_sorted x _ ih

theorem sortDescNat_sorted_gt (l : List Nat) (h : l.Nodup) :
    (sortDescNat l).Sorted (· > ·) := by
  have hs := sortDescNat_sorted l
  have hnd : (sortDescNat l).Nodup :=
    ((sortBy_perm _ l).nodup_iff).mpr h
  exact (hs.and hnd).imp (fun hab => lt_of_le_of_ne hab.1 (Ne.symm hab.2))

/-- Position-indexed removal: keep exactly the elements whose position in the
original array (counting from `s`) is not named in `dels`; the intended
effect of the descending deletion pass (spec §4.G-array step 2). -/
def keepWhere {α : Type} (dels : List Nat) : Nat → List α → List α
  | _, [] => []
  | s, x :: xs =>
      if s ∈ dels then keepWhere dels (s + 1) xs
      else x :: keepWhere dels (s + 1) xs

theorem keepWhere_all_lt {α : Type} (dels : List Nat) :
    ∀ (w : List α) (s : Nat), (∀ j ∈ dels, j < s) → keepWhere dels s w = w
  | [], _, _ => rfl
  | x :: xs, s, h => by
      rw [keepWhere]
      rw [if_neg (fun hc => absurd (h s hc) (lt_irrefl s))]
      rw [keepWhere_all_lt dels xs (s + 1) (fun j hj => lt_trans (h j hj) (Nat.lt_succ_self s))]

theorem keepWhere_big_idx {α : Type} (dels : List Nat) (i : Nat) :
    ∀ (w : List α) (s : Nat), s + w.length ≤ i →
      keepWhere (i :: dels) s w = keepWhere dels s w
  | [], _, _ => rfl
  | x :: xs, s, h => by
      have hsi : s ≠ i := by simp at h; omega
      have hrec := keepWhere_big_idx dels i xs (s + 1) (by simp at h ⊢; omega)
      rw [keepWhere, keepWhere]
      by_cases hs : s ∈ dels
      · rw [if_pos (List.mem_cons.mpr (Or.inr hs)), if_pos hs, hrec]
      · have hnotc : s ∉ i :: dels := by
          intro hc
          rcases List.mem_cons.mp hc with h' | h'
          · exact hsi h'
          · exact hs h'
        rw [if_neg hnotc, if_neg hs, hrec]

theorem keepWhere_eraseIdx {α : Type} (dels : List Nat) :
    ∀ (w : List α) (s t : Nat), (∀ j ∈ dels, j < s + t) → t < w.length →
      keepWhere dels s (w.eraseIdx t) = keepWhere ((s + t) :: dels) s w
  | [], _, _, _, ht => by simp at ht
  | x :: xs, s, 0, h, _ => by
      rw [List.eraseIdx_cons_zero]
      have h1 : keepWhere dels s xs = xs :=
        keepWhere_all_lt dels xs s (by simpa using h)
      have h2 : keepWhere ((s + 0) :: dels) s (x :: xs) =
          keepWhere ((s + 0) :: dels) (s + 1) xs := by
        rw [keepWhere, if_pos (List.mem_cons.mpr (Or.inl (by omega)))]
      have h3 : keepWhere ((s + 0) :: dels) (s + 1) xs = xs := by
        refine keepWhere_all_lt _ xs (s + 1) ?_
        intro j hj
        rcases List.mem_cons.mp hj with h' | h'
        · omega
        · have := h j h'
          omega
      rw [h1, h2, h3]
  | x :: xs, s, t + 1, h, ht => by
      rw [List.eraseIdx_cons_succ, keepWhere, keepWhere]
      have hrec := keepWhere_eraseIdx dels xs (s + 1) t
        (fun j hj => by have := h j hj; omega) (by simpa using ht)
      have harith : s + 1 + t = s + (t + 1) := by omega
      rw [harith] at hrec
      have hst : s ∉ [s + (t + 1)] := by simp
      by_cases hs : s ∈ dels
      · rw [if_pos hs, if_pos (List.mem_cons.mpr (Or.inr hs)), hrec]
      · have hnotc : s ∉ (s + (t + 1)) :: dels := by
          intro hc
          rcases List.mem_cons.mp hc with h' | h'
          · omega
          · exact hs h'
        rw [if_neg hs, if_neg hnotc, hrec]

theorem applyDeletions_sorted_gt {α : Type} :
    ∀ (idxs : List Nat) (w : List α), idxs.Sorted (· > ·) →
      applyDeletions w idxs = keepWhere idxs 0 w
  | [], w, _ => by
      rw [applyDeletions, keepWhere_all_lt [] w 0 (by simp)]
  | i :: rest, w, h => by
      rw [List.sorted_cons] at h
      rw [applyDeletions]
      by_cases hi : i < w.length
      · rw [if_pos hi]
        rw [applyDeletions_sorted_gt rest (w.eraseIdx i) h.2]
        have := keepWhere_eraseIdx rest w 0 i
          (fun j hj => by have := h.1 j hj; omega) hi
        simpa using this
      · rw [if_neg hi]
        rw [applyDeletions_sorted_gt rest w h.2]
        rw [keepWhere_big_idx rest i w 0 (by omega)]

end JsonDiffC

namespace JsonDiffC

theorem keepWhere_congr {α : Type} (d1 d2 : List Nat)
    (hm : ∀ j, j ∈ d1 ↔ j ∈ d2) :
    ∀ (w : List α) (s : Nat), keepWhere d1 s w = keepWhere d2 s w
  | [], _ => rfl
  | x :: xs, s => by
      rw [keepWhere, keepWhere]
      by_cases h : s ∈ d1
      · rw [if_pos h, if_pos ((hm s).mp h), keepWhere_congr d1 d2 hm xs (s + 1)]
      · rw [if_neg h, if_neg (fun hc => h ((hm s).mpr hc)),
          keepWhere_congr d1 d2 hm xs (s + 1)]

theorem mem_collectDeletes (dfields : List (String × JVal)) (rep : List Nat)
    (i : Nat) :
    i ∈ collectDeletes dfields rep ↔
      ∃ kv ∈ dfields, underscoreKey kv.1 = true ∧ kv.1 ≠ "_t" ∧
        parse_index (kv.1.drop 1) = some i ∧ isMoveShape kv.2 = false ∧
        i ∉ rep := by
  simp only [collectDeletes, List.mem_filterMap]
  constructor
  · rintro ⟨kv, hkv, hf⟩
    refine ⟨kv, hkv, ?_⟩
    by_cases h1 : underscoreKey kv.1 = true
    case neg => simp [h1] at hf
    by_cases h2 : kv.1 = "_t"
    case pos => simp [h2] at hf
    cases hp : parse_index (kv.1.drop 1) with
    | none => simp [h1, h2, hp] at hf
    | some idx =>
      by_cases h3 : isMoveShape kv.2 = true
      · simp [h1, h2, hp, h3] at hf
      · by_cases h4 : idx ∈ rep
        · simp [h1, h2, hp, h3, h4] at hf
        · simp [h1, h2, hp, h3, h4] at hf
          refine ⟨h1, h2, ?_, by simpa using h3, ?_⟩
          · rw [hf]
          · intro hc
            rw [← hf] at hc
            exact h4 hc
  · rintro ⟨kv, hkv, h1, h2, hp, h3, h4⟩
    exact ⟨kv, hkv, by simp [h1, h2, hp, h3, h4]⟩

theorem mem_collectReplace (dfields : List (String × JVal)) (i : Nat) :
    i ∈ collectReplace dfields ↔
      ∃ kv ∈ dfields, (kv.1 == "_t" || underscoreKey kv.1) = false ∧
        (∃ e, kv.2 = JVal.arr [e]) ∧ parse_index kv.1 = some i := by
  simp only [collectReplace, List.mem_filterMap]
  constructor
  · rintro ⟨kv, hkv, hf⟩
    refine ⟨kv, hkv, ?_⟩
    by_cases h1 : (kv.1 == "_t" || underscoreKey kv.1) = true
    case pos => simp [h1] at hf
    rw [Bool.not_eq_true] at h1
    refine ⟨h1, ?_⟩
    rcases kv with ⟨k, v⟩
    cases v with
    | arr es =>
        cases es with
        | nil => simp [h1] at hf
        | cons e tl =>
            cases tl with
            | nil => exact ⟨⟨e, rfl⟩, by simpa [h1] using hf⟩
            | cons e2 tl2 => simp [h1] at hf
    | null => simp [h1] at hf
    | bool b => simp [h1] at hf
    | num q => simp [h1] at hf
    | str t => simp [h1] at hf
    | obj fs => simp [h1] at hf
  · rintro ⟨kv, hkv, h1, ⟨e, he⟩, hp⟩
    exact ⟨kv, hkv, by simp [h1, he, hp]⟩

/-- C7: the deletion pass of patch_array.  The collected deletion indices are
exactly the `_`-prefixed entries whose key tail passes the full index parse
and whose value is not move-shaped, minus the indices that also occur as
one-element additions (the replacement pairing, which drops the deletion);
the pass sorts them descending — strictly descending whenever the collected
indices are distinct — and applying them in that order removes exactly the
elements at those positions of the pre-pass working array, before the
addition / nested-patch pass (which patch_array runs afterwards by
construction) touches it. -/
theorem C7_deletions_descending_before_additions
    (dfields : List (String × JVal)) (w : List JVal)
    (hnd : (collectDeletes dfields (collectReplace dfields)).Nodup) :
    (sortDescNat (collectDeletes dfields (collectReplace dfields))).Sorted
        (· > ·) ∧
    (∀ i, i ∈ collectDeletes dfields (collectReplace dfields) ↔
      (∃ kv ∈ dfields, underscoreKey kv.1 = true ∧ kv.1 ≠ "_t" ∧
        parse_index (kv.1.drop 1) = some i ∧ isMoveShape kv.2 = false) ∧
      i ∉ collectReplace dfields) ∧
    applyDeletions w
        (sortDescNat (collectDeletes dfields (collectReplace dfields))) =
      keepWhere (collectDeletes dfields (collectReplace dfields)) 0 w := by
  refine ⟨sortDescNat_sorted_gt _ hnd, ?_, ?_⟩
  · intro i
    rw [mem_collectDeletes]
    constructor
    · rintro ⟨kv, hkv, ha, hb, hc, hd, he⟩
      exact ⟨⟨kv, hkv, ha, hb, hc, hd⟩, he⟩
    · rintro ⟨⟨kv, hkv, ha, hb, hc, hd⟩, he⟩
      exact ⟨kv, hkv, ha, hb, hc, hd, he⟩
  · rw [applyDeletions_sorted_gt _ w (sortDescNat_sorted_gt _ hnd)]
    exact keepWhere_congr _ _
      (fun j => (sortBy_perm _ _).mem_iff) w 0

/-- Witness for C7: delta entries {"0":[9], "_0":[1,0,0], "_2":[3,0,0],
"_t":"a"} over base [1,2,3]: index 0 is replacement-paired so only index 2 is
deleted. -/
theorem C7_deletions_descending_before_additions_witness :
    (collectDeletes
        [("0", JVal.arr [.num 9]), ("_0", JVal.arr [.num 1, .num 0, .num 0]),
         ("_2", JVal.arr [.num 3, .num 0, .num 0]), ("_t", JVal.str "a")]
        (collectReplace
          [("0", JVal.arr [.num 9]), ("_0", JVal.arr [.num 1, .num 0, .num 0]),
           ("_2", JVal.arr [.num 3, .num 0, .num 0]),
           ("_t", JVal.str "a")])).Nodup ∧
    ((sortDescNat (collectDeletes
        [("0", JVal.arr [.num 9]), ("_0", JVal.arr [.num 1, .num 0, .num 0]),
         ("_2", JVal.arr [.num 3, .num 0, .num 0]), ("_t", JVal.str "a")]
        (collectReplace
          [("0", JVal.arr [.num 9]), ("_0", JVal.arr [.num 1, .num 0, .num 0]),
           ("_2", JVal.arr [.num 3, .num 0, .num 0]),
           ("_t", JVal.str "a")]))).Sorted (· > ·) ∧
    (∀ i, i ∈ collectDeletes
        [("0", JVal.arr [.num 9]), ("_0", JVal.arr [.num 1, .num 0, .num 0]),
         ("_2", JVal.arr [.num 3, .num 0, .num 0]), ("_t", JVal.str "a")]
        (collectReplace
          [("0", JVal.arr [.num 9]), ("_0", JVal.arr [.num 1, .num 0, .num 0]),
           ("_2", JVal.arr [.num 3, .num 0, .num 0]),
           ("_t", JVal.str "a")]) ↔
      (∃ kv ∈ [("0", JVal.arr [.num 9]),
               ("_0", JVal.arr [.num 1, .num 0, .num 0]),
               ("_2", JVal.arr [.num 3, .num 0, .num 0]),
               ("_t", JVal.str "a")], underscoreKey kv.1 = true ∧
          kv.1 ≠ "_t" ∧ parse_index (kv.1.drop 1) = some i ∧
          isMoveShape kv.2 = false) ∧
      i ∉ collectReplace
          [("0", JVal.arr [.num 9]), ("_0", JVal.arr [.num 1, .num 0, .num 0]),
           ("_2", JVal.arr [.num 3, .num 0, .num 0]),
           ("_t", JVal.str "a")]) ∧
    applyDeletions [JVal.num 1, JVal.num 2, JVal.num 3]
        (sortDescNat (collectDeletes
          [("0", JVal.arr [.num 9]), ("_0", JVal.arr [.num 1, .num 0, .num 0]),
           ("_2", JVal.arr [.num 3, .num 0, .num 0]), ("_t", JVal.str "a")]
          (collectReplace
            [("0", JVal.arr [.num 9]),
             ("_0", JVal.arr [.num 1, .num 0, .num 0]),
             ("_2", JVal.arr [.num 3, .num 0, .num 0]),
             ("_t", JVal.str "a")]))) =
      keepWhere (collectDeletes
          [("0", JVal.arr [.num 9]), ("_0", JVal.arr [.num 1, .num 0, .num 0]),
           ("_2", JVal.arr [.num 3, .num 0, .num 0]), ("_t", JVal.str "a")]
          (collectReplace
            [("0", JVal.arr [.num 9]),
             ("_0", JVal.arr [.num 1, .num 0, .num 0]),
             ("_2", JVal.arr [.num 3, .num 0, .num 0]),
             ("_t", JVal.str "a")])) 0
        [JVal.num 1, JVal.num 2, JVal.num 3]) :=
  ⟨by decide, C7_deletions_descending_before_additions _ _ (by decide)⟩

end JsonDiffC

namespace JsonDiffC

/-- C8 counterexample: the move-op collection parses the key tail with
`strtol(k + 1, NULL, 10)` and no endptr check (src/src/json_diff.c:900), so
the junk key `_x` yields source index 0; with a move-shaped value the entry
is applied and reorders the working array, although its key does not parse as
an index — the claim says such an entry never alters the working array. -/
theorem C8_junk_key_move_entry_applied :
    parse_index ("_x".drop 1) = none ∧
    (json_patch 10 0 (.arr [.bool false, .bool true])
        (.obj [("_x", .arr [.str "", .num 1, .num 3]),
               ("_t", .str "a")])).1 = some (.arr [.bool true, .bool false]) ∧
    (json_patch 10 0 (.arr [.bool false, .bool true])
        (.obj [("_t", .str "a")])).1 =
      some (.arr [.bool false, .bool true]) ∧
    (JVal.arr [.bool true, .bool false]) ≠
      (.arr [.bool false, .bool true]) := by decide

/-- Malformed-key condition under which patch_array provably ignores an
entry: a non-`_` key failing the index parse, or a `_`-key whose tail fails
the parse and whose value is not an accepted move candidate (move candidates
escape the claim — see the counterexample). -/
def ignoredEntry (k : String) (v : JVal) : Prop :=
  (underscoreKey k = false ∧ parse_index k = none) ∨
  (underscoreKey k = true ∧ parse_index (k.drop 1) = none ∧
    isMoveCandidate v = false)

theorem patchArrayAddStep_skip
    (patchF : Nat → JVal → JVal → Option JVal × Nat)
    (st : Nat) (w : List JVal) (k : String) (v : JVal)
    (h : ignoredEntry k v) :
    patchArrayAddStep patchF st w k v = (w, st) := by
  rcases h with ⟨hu, hp⟩ | ⟨hu, _, _⟩
  · have ht : (k == "_t") = false := by
      cases hkt : k == "_t" with
      | false => rfl
      | true =>
          rw [eq_of_beq hkt] at hu
          simp [underscoreKey] at hu
    rw [patchArrayAddStep]
    rw [ht, hu]
    simp [hp]
  · rw [patchArrayAddStep]
    rw [hu]
    simp

theorem patchArrayAddLoop_ignore
    (patchF : Nat → JVal → JVal → Option JVal × Nat)
    (post : List (String × JVal)) (k : String) (v : JVal)
    (h : ignoredEntry k v) :
    ∀ (pre : List (String × JVal)) (st : Nat) (w : List JVal),
      patchArrayAddLoop patchF st w (pre ++ (k, v) :: post) =
        patchArrayAddLoop patchF st w (pre ++ post)
  | [], st, w => by
      rw [List.nil_append, List.nil_append, patchArrayAddLoop,
        patchArrayAddStep_skip patchF st w k v h]
  | e :: pre, st, w => by
      rw [List.cons_append, List.cons_append, patchArrayAddLoop,
        patchArrayAddLoop]
      obtain ⟨k', v'⟩ := e
      cases hstep : patchArrayAddStep patchF st w k' v' with
      | mk w' st' => exact patchArrayAddLoop_ignore patchF post k v h pre st' w'

theorem collectReplace_ignore (post : List (String × JVal)) (k : String)
    (v : JVal) (h : ignoredEntry k v) (pre : List (String × JVal)) :
    collectReplace (pre ++ (k, v) :: post) = collectReplace (pre ++ post) := by
  have hnone : (if k == "_t" || underscoreKey k then none
      else match v with
        | JVal.arr [_] => parse_index k
        | _ => none) = (none : Option Nat) := by
    rcases h with ⟨hu, hp⟩ | ⟨hu, _, _⟩
    · have ht : (k == "_t") = false := by
        cases hkt : k == "_t" with
        | false => rfl
        | true =>
            rw [eq_of_beq hkt] at hu
            simp [underscoreKey] at hu
      rw [ht, hu]
      cases v with
      | arr es =>
          cases es with
          | nil => rfl
          | cons e tl =>
              cases tl with
              | nil => simpa using hp
              | cons e2 tl2 => rfl
      | null => rfl
      | bool b => rfl
      | num q => rfl
      | str t => rfl
      | obj fs => rfl
    · rw [hu]
      simp
  simp only [collectReplace, List.filterMap_append, List.filterMap_cons]
  rw [hnone]

theorem collectMoves_ignore (post : List (String × JVal)) (k : String)
    (v : JVal) (h : ignoredEntry k v) (pre : List (String × JVal)) :
    collectMoves (pre ++ (k, v) :: post) = collectMoves (pre ++ post) := by
  have hnone : (if k == "_t" then none
      else if underscoreKey k then
        match v with
        | JVal.arr [.str _, .num d, .num t] =>
            if decide (cIntOfRat t = 3) then
              (match strtol10 ((k.drop 1).toList) with
               | (s, _, _) =>
                  if 0 ≤ s ∧ s ≤ INT_MAX then some (s.toNat, cIntOfRat d)
                  else none)
            else none
        | _ => none
      else none) = (none : Option (Nat × Int)) := by
    rcases h with ⟨hu, _⟩ | ⟨hu, _, hmc⟩
    · have ht : (k == "_t") = false := by
        cases hkt : k == "_t" with
        | false => rfl
        | true =>
            rw [eq_of_beq hkt] at hu
            simp [underscoreKey] at hu
      rw [ht, hu]
      simp
    · by_cases hkt : (k == "_t") = true
      · rw [hkt]
        rfl
      · rw [Bool.not_eq_true] at hkt
        rw [hkt, hu]
        cases v with
        | arr es =>
            match es with
            | [] => rfl
            | [e] => cases e <;> rfl
            | [e0, e1] => cases e0 <;> cases e1 <;> rfl
            | e0 :: e1 :: e2 :: e3 :: tl =>
                cases e0 <;> cases e1 <;> cases e2 <;> rfl
            | [e0, e1, e2] =>
                cases e0 with
                | str s0 =>
                    cases e1 with
                    | num d =>
                        cases e2 with
                        | num t =>
                            have : decide (cIntOfRat t = 3) = false := by
                              simpa [isMoveCandidate] using hmc
                            simp [this]
                        | null => rfl
                        | bool b => rfl
                        | str s2 => rfl
                        | arr l2 => rfl
                        | obj f2 => rfl
                    | null => rfl
                    | bool b => rfl
                    | str s1 => rfl
                    | arr l1 => rfl
                    | obj f1 => rfl
                | null => rfl
                | bool b => rfl
                | num q0 => rfl
                | arr l0 => rfl
                | obj f0 => rfl
        | null => rfl
        | bool b => rfl
        | num q => rfl
        | str t => rfl
        | obj fs => rfl
  simp only [collectMoves, List.filterMap_append, List.filterMap_cons]
  rw [hnone]

theorem collectDeletes_ignore (post : List (String × JVal)) (k : String)
    (v : JVal) (h : ignoredEntry k v) (rep : List Nat)
    (pre : List (String × JVal)) :
    collectDeletes (pre ++ (k, v) :: post) rep =
      collectDeletes (pre ++ post) rep := by
  have hnone : (if underscoreKey k ∧ k ≠ "_t" then
      match parse_index (k.drop 1) with
      | none => none
      | some idx =>
          if isMoveShape v then none
          else if idx ∈ rep then none
          else some idx
      else none) = (none : Option Nat) := by
    rcases h with ⟨hu, _⟩ | ⟨_, hpd, _⟩
    · simp [hu]
    · by_cases hc : underscoreKey k = true ∧ k ≠ "_t"
      · rw [if_pos (by simpa using hc)]
        rw [hpd]
      · rw [if_neg (by simpa using hc)]
  simp only [collectDeletes, List.filterMap_append, List.filterMap_cons]
  rw [hnone]

end JsonDiffC

namespace JsonDiffC

/-- C8 (amended): an array-delta entry whose key does not parse as an index
is ignored by patch_array — same result, same counter — provided that, when
the key starts with `_`, its value is not an accepted move candidate. The
proviso is necessary: the move collection (src/src/json_diff.c:897-905)
parses the key tail with strtol and never checks the end pointer, so a
`_`-junk key with a move-shaped value is applied (see the counterexample). -/
theorem C8_malformed_entries_ignored
    (patchF : Nat → JVal → JVal → Option JVal × Nat)
    (st : Nat) (xs : List JVal)
    (pre post : List (String × JVal)) (k : String) (v : JVal)
    (h : ignoredEntry k v) :
    patch_array patchF st xs (pre ++ (k, v) :: post) =
      patch_array patchF st xs (pre ++ post) := by
  simp only [patch_array]
  rw [collectReplace_ignore post k v h pre,
      collectMoves_ignore post k v h pre,
      collectDeletes_ignore post k v h _ pre,
      patchArrayAddLoop_ignore patchF post k v h pre]

theorem C8_malformed_entries_ignored_witness :
    ignoredEntry "x" (.num 5) ∧
    patch_array (fun st _ _ => (none, st)) 0 [.num 1]
        ([] ++ ("x", .num 5) :: [("_t", .str "a")]) =
      patch_array (fun st _ _ => (none, st)) 0 [.num 1]
        ([] ++ [("_t", .str "a")]) :=
  ⟨Or.inl ⟨by decide, by decide⟩,
   C8_malformed_entries_ignored (fun st _ _ => (none, st)) 0 [.num 1]
     [] [("_t", .str "a")] "x" (.num 5) (Or.inl ⟨by decide, by decide⟩)⟩

end JsonDiffC

namespace JsonDiffC

/-- The addition block of the object differ in closed form: the right
object's members in sorted (strcmp) key order, an addition entry for each key
absent from the left object. -/
def specObjAdds (fs gs : List (String × JVal)) : List (String × JVal) :=
  (build_key_index gs).filterMap (fun kv =>
    if jlookup fs kv.1 = none then some (kv.1, create_addition_array kv.2)
    else none)

theorem insBy_pairwise {α : Type} (le : α → α → Bool)
    (htot : ∀ a b, le a b = false → le b a = true)
    (htr : ∀ a b c, le a b = true → le b c = true → le a c = true)
    (x : α) :
    ∀ l : List α, l.Pairwise (fun a b => le a b = true) →
      (insBy le x l).Pairwise (fun a b => le a b = true)
  | [], _ => by simp [insBy]
  | y :: ys, h => by
      rw [List.pairwise_cons] at h
      obtain ⟨hy, hys⟩ := h
      rw [insBy]
      cases hxy : le y x with
      | true =>
          simp only [if_pos]
          rw [List.pairwise_cons]
          refine ⟨?_, insBy_pairwise le htot htr x ys hys⟩
          intro a ha
          rcases List.mem_cons.1 ((insBy_perm le x ys).mem_iff.1 ha)
            with ha | ha
          · rw [ha]; exact hxy
          · exact hy a ha
      | false =>
          simp only [Bool.false_eq_true, if_neg, not_false_iff]
          rw [List.pairwise_cons]
          refine ⟨?_, List.pairwise_cons.2 ⟨hy, hys⟩⟩
          intro a ha
          rcases List.mem_cons.1 ha with ha | ha
          · rw [ha]; exact htot y x hxy
          · exact htr x y a (htot y x hxy) (hy a ha)

theorem sortBy_pairwise {α : Type} (le : α → α → Bool)
    (htot : ∀ a b, le a b = false → le b a = true)
    (htr : ∀ a b c, le a b = true → le b c = true → le a c = true) :
    ∀ l : List α, (sortBy le l).Pairwise (fun a b => le a b = true)
  | [] => by simp [sortBy]
  | x :: xs => by
      rw [sortBy]
      exact insBy_pairwise le htot htr x _ (sortBy_pairwise le htot htr xs)

theorem stringDataEq {a b : String} (h : a.data = b.data) : a = b :=
  congrArg String.mk h

theorem strCmpL_eq_iff : ∀ (as bs : List Char), strCmpL as bs = .eq ↔ as = bs
  | [], [] => by simp [strCmpL]
  | [], _ :: _ => by simp [strCmpL]
  | _ :: _, [] => by simp [strCmpL]
  | a :: as, b :: bs => by
      rw [strCmpL]
      by_cases h1 : a < b
      · rw [if_pos h1]
        constructor
        · intro h; simp at h
        · intro h
          injection h with h h'
          exact absurd h (ne_of_lt h1)
      · rw [if_neg h1]
        by_cases h2 : b < a
        · rw [if_pos h2]
          constructor
          · intro h; simp at h
          · intro h
            injection h with h h'
            exact absurd h.symm (ne_of_lt h2)
        · rw [if_neg h2]
          have hab : a = b := le_antisymm (le_of_not_lt h2) (le_of_not_lt h1)
          rw [strCmpL_eq_iff as bs, hab]
          constructor
          · intro h; rw [h]
          · intro h
            injection h

theorem cmpStr_eq_iff (a b : String) : cmpStr a b = .eq ↔ a = b := by
  rw [cmpStr, strCmpL_eq_iff]
  constructor
  · exact stringDataEq
  · intro h; rw [h]

theorem strCmpL_swap_lt : ∀ (as bs : List Char),
    strCmpL as bs = .lt ↔ strCmpL bs as = .gt
  | [], [] => by simp [strCmpL]
  | [], _ :: _ => by simp [strCmpL]
  | _ :: _, [] => by simp [strCmpL]
  | a :: as, b :: bs => by
      rw [strCmpL, strCmpL]
      by_cases h1 : a < b
      · simp only [if_pos h1, if_neg (asymm h1)]
      · by_cases h2 : b < a
        · simp only [if_neg h1, if_pos h2]
          simp
        · simp only [if_neg h1, if_neg h2]
          exact strCmpL_swap_lt as bs

theorem cmpStr_swap (a b : String) : cmpStr a b = .lt ↔ cmpStr b a = .gt :=
  strCmpL_swap_lt a.data b.data

theorem strCmpL_lt_trans : ∀ (as bs cs : List Char),
    strCmpL as bs = .lt → strCmpL bs cs = .lt → strCmpL as cs = .lt
  | [], [], cs => by intro h1 h2; simp [strCmpL] at h1
  | a :: as, [], cs => by intro h1 h2; simp [strCmpL] at h1
  | [], b :: bs, [] => by intro h1 h2; simp [strCmpL] at h2
  | [], b :: bs, c :: cs => by intro h1 h2; rfl
  | a :: as, b :: bs, [] => by intro h1 h2; simp [strCmpL] at h2
  | a :: as, b :: bs, c :: cs => by
      intro h1 h2
      rw [strCmpL] at h1 h2 ⊢
      by_cases hab : a < b
      · by_cases hbc : b < c
        · rw [if_pos (lt_trans hab hbc)]
        · by_cases hcb : c < b
          · rw [if_neg hbc, if_pos hcb] at h2
            simp at h2
          · have hbceq : b = c :=
              le_antisymm (le_of_not_lt hcb) (le_of_not_lt hbc)
            rw [if_pos (hbceq ▸ hab)]
      · by_cases hba : b < a
        · rw [if_neg hab, if_pos hba] at h1
          simp at h1
        · have habeq : a = b :=
            le_antisymm (le_of_not_lt hba) (le_of_not_lt hab)
          subst habeq
          rw [if_neg hab, if_neg hba] at h1
          by_cases hac : a < c
          · rw [if_pos hac]
          · by_cases hca : c < a
            · rw [if_neg hac, if_pos hca] at h2
              simp at h2
            · rw [if_neg hac, if_neg hca] at h2 ⊢
              exact strCmpL_lt_trans as bs cs h1 h2

theorem cmpStr_lt_trans (a b c : String) :
    cmpStr a b = .lt → cmpStr b c = .lt → cmpStr a c = .lt :=
  strCmpL_lt_trans a.data b.data c.data

theorem build_key_index_sorted_lt (fields : List (String × JVal))
    (hnd : (fields.map Prod.fst).Nodup) :
    (build_key_index fields).Pairwise (fun a b => cmpStr a.1 b.1 = .lt) := by
  have hle : (build_key_index fields).Pairwise
      (fun a b => strLe a.1 b.1 = true) := by
    refine sortBy_pairwise _ ?_ ?_ fields
    · intro a b hab
      rw [strLe, decide_eq_false_iff_not, not_not] at hab
      have hba : cmpStr b.1 a.1 = .lt := (cmpStr_swap b.1 a.1).2 hab
      rw [strLe, decide_eq_true_eq, hba]
      simp
    · intro a b c hab hbc
      rw [strLe, decide_eq_true_eq] at hab hbc
      rw [strLe, decide_eq_true_eq]
      cases h1 : cmpStr a.1 b.1 with
      | lt =>
          cases h2 : cmpStr b.1 c.1 with
          | lt =>
              rw [cmpStr_lt_trans _ _ _ h1 h2]
              simp
          | eq =>
              have hb : b.1 = c.1 := (cmpStr_eq_iff b.1 c.1).1 h2
              rw [← hb, h1]
              simp
          | gt => exact absurd h2 hbc
      | eq =>
          have ha : a.1 = b.1 := (cmpStr_eq_iff a.1 b.1).1 h1
          rw [ha]
          exact hbc
      | gt => exact absurd h1 hab
  have hperm : List.Perm ((build_key_index fields).map Prod.fst)
      (fields.map Prod.fst) := (sortBy_perm _ fields).map Prod.fst
  have hnd' : ((build_key_index fields).map Prod.fst).Nodup :=
    hperm.nodup_iff.2 hnd
  have hne : (build_key_index fields).Pairwise (fun a b => a.1 ≠ b.1) :=
    List.pairwise_map.1 hnd'
  refine (hle.and hne).imp ?_
  intro a b h
  have h1 : cmpStr a.1 b.1 ≠ .gt := by
    have := h.1
    rwa [strLe, decide_eq_true_eq] at this
  have h2 : cmpStr a.1 b.1 ≠ .eq := fun hc => h.2 ((cmpStr_eq_iff _ _).1 hc)
  cases hc : cmpStr a.1 b.1 with
  | lt => rfl
  | eq => exact absurd hc h2
  | gt => exact absurd hc h1

theorem jlookup_some_mem :
    ∀ (fs : List (String × JVal)) (k : String) (v : JVal),
      jlookup fs k = some v → (k, v) ∈ fs
  | [], k, v => by intro h; cases h
  | (k', v') :: fs, k, v => by
      intro hv
      rw [jlookup] at hv
      by_cases h : k' = k
      · rw [if_pos h] at hv
        injection hv with hv
        rw [← h, ← hv]
        exact List.mem_cons_self _ _
      · rw [if_neg h] at hv
        exact List.mem_cons_of_mem _ (jlookup_some_mem fs k v hv)

theorem jlookup_none_iff :
    ∀ (fs : List (String × JVal)) (k : String),
      jlookup fs k = none ↔ k ∉ fs.map Prod.fst
  | [], k => by simp [jlookup]
  | (k', v') :: fs, k => by
      rw [jlookup]
      by_cases h : k' = k
      · rw [if_pos h]
        simp [h]
      · rw [if_neg h, jlookup_none_iff fs k]
        simp only [List.map_cons, List.mem_cons]
        constructor
        · intro hk hc
          rcases hc with hc | hc
          · exact h hc.symm
          · exact hk hc
        · intro hk hc
          exact hk (Or.inr hc)

theorem jlookup_of_mem_nodup :
    ∀ (fs : List (String × JVal)), (fs.map Prod.fst).Nodup →
      ∀ (k : String) (v : JVal), (k, v) ∈ fs → jlookup fs k = some v
  | [], _, k, v, h => by cases h
  | (k', v') :: fs, hnd, k, v, h => by
      rw [List.map_cons, List.nodup_cons] at hnd
      rw [jlookup]
      rcases List.mem_cons.1 h with he | he
      · injection he with h1 h2
        rw [if_pos h1.symm, h2]
      · by_cases hk : k' = k
        · exfalso
          apply hnd.1
          rw [hk, List.mem_map]
          exact ⟨(k, v), he, rfl⟩
        · rw [if_neg hk]
          exact jlookup_of_mem_nodup fs hnd.2 k v he

end JsonDiffC

namespace JsonDiffC

theorem index_get_go_some_mem (arr : List (String × JVal)) (key : String) :
    ∀ (fuel : Nat) (lo hi : Int) (v : JVal),
      index_get_go arr key fuel lo hi = some v → (key, v) ∈ arr
  | 0, lo, hi, v => by intro h; cases h
  | fuel + 1, lo, hi, v => by
      intro h
      rw [index_get_go] at h
      by_cases hlh : lo ≤ hi
      · rw [if_pos hlh] at h
        cases harr : arr[(lo + (hi - lo) / 2).toNat]? with
        | none => rw [harr] at h; cases h
        | some kv =>
            obtain ⟨k, w⟩ := kv
            rw [harr] at h
            dsimp only at h
            cases hcmp : cmpStr key k with
            | eq =>
                rw [hcmp] at h
                injection h with h
                have hk : key = k := (cmpStr_eq_iff key k).1 hcmp
                rw [hk, ← h]
                obtain ⟨hlt2, hval⟩ := List.getElem?_eq_some_iff.1 harr
                rw [← hval]
                exact List.getElem_mem hlt2
            | lt =>
                rw [hcmp] at h
                exact index_get_go_some_mem arr key fuel lo
                  ((lo + (hi - lo) / 2) - 1) v h
            | gt =>
                rw [hcmp] at h
                exact index_get_go_some_mem arr key fuel
                  ((lo + (hi - lo) / 2) + 1) hi v h
      · rw [if_neg hlh] at h
        cases h

theorem index_get_go_found (arr : List (String × JVal))
    (hpw : arr.Pairwise (fun a b => cmpStr a.1 b.1 = .lt)) (key : String)
    (v : JVal)
    (i : Nat) (hiv : arr[i]? = some (key, v)) :
    ∀ (fuel : Nat) (lo hi : Int), lo ≤ (i : Int) → (i : Int) ≤ hi →
      hi < (arr.length : Int) → (hi + 1 - lo).toNat < fuel →
      index_get_go arr key fuel lo hi = some v := by
  have hilen : i < arr.length := by
    rcases List.getElem?_eq_some_iff.1 hiv with ⟨h, _⟩
    exact h
  have hival : arr[i] = (key, v) := by
    rcases List.getElem?_eq_some_iff.1 hiv with ⟨h, hval⟩
    exact hval
  intro fuel
  induction fuel with
  | zero => intro lo hi h1 h2 h3 h4; omega
  | succ fuel ih =>
      intro lo hi h1 h2 h3 h4
      have hlohi : lo ≤ hi := le_trans h1 h2
      rw [index_get_go, if_pos hlohi]
      have hmid1 : lo ≤ lo + (hi - lo) / 2 := by omega
      have hmid2 : lo + (hi - lo) / 2 ≤ hi := by omega
      have hmidlt : (lo + (hi - lo) / 2).toNat < arr.length := by omega
      have hget : arr[(lo + (hi - lo) / 2).toNat]? =
          some arr[(lo + (hi - lo) / 2).toNat] :=
        List.getElem?_eq_getElem hmidlt
      rcases hpair : arr[(lo + (hi - lo) / 2).toNat] with ⟨k, w⟩
      rw [hpair] at hget
      rw [hget]
      dsimp only
      rcases Nat.lt_trichotomy i (lo + (hi - lo) / 2).toNat
        with hcase | hcase | hcase
      · have hklt : cmpStr key k = .lt := by
          have := (List.pairwise_iff_getElem.1 hpw) i
            (lo + (hi - lo) / 2).toNat hilen hmidlt hcase
          simpa [hival, hpair] using this
        rw [hklt]
        exact ih lo ((lo + (hi - lo) / 2) - 1) h1 (by omega) (by omega)
          (by omega)
      · subst hcase
        have hkey : (k, w) = ((key, v) : String × JVal) := by
          rw [← hpair, hival]
        injection hkey with hk hw
        rw [hk, (cmpStr_eq_iff key key).2 rfl, hw]
      · have hkgt : cmpStr k key = .lt := by
          have := (List.pairwise_iff_getElem.1 hpw)
            (lo + (hi - lo) / 2).toNat i hmidlt hilen hcase
          simpa [hival, hpair] using this
        rw [(cmpStr_swap k key).1 hkgt]
        exact ih ((lo + (hi - lo) / 2) + 1) hi (by omega) (by omega) h3
          (by omega)

theorem index_get_build (fields : List (String × JVal))
    (hnd : (fields.map Prod.fst).Nodup) (key : String) :
    index_get (build_key_index fields) key = jlookup fields key := by
  have hperm : List.Perm (build_key_index fields) fields := sortBy_perm _ _
  have hpw : (build_key_index fields).Pairwise
      (fun a b => cmpStr a.1 b.1 = .lt) :=
    build_key_index_sorted_lt fields hnd
  cases hj : jlookup fields key with
  | some v =>
      have hmem : (key, v) ∈ build_key_index fields :=
        hperm.mem_iff.2 (jlookup_some_mem fields key v hj)
      obtain ⟨i, hilt, hival⟩ := List.getElem_of_mem hmem
      have hiv : (build_key_index fields)[i]? = some (key, v) := by
        rw [List.getElem?_eq_getElem hilt, hival]
      rw [index_get]
      exact index_get_go_found _ hpw key v i hiv _ 0 _ (by omega)
        (by omega) (by omega) (by omega)
  | none =>
      cases hg : index_get (build_key_index fields) key with
      | none => rfl
      | some v =>
          exfalso
          rw [index_get] at hg
          have hmem := index_get_go_some_mem _ key _ _ _ v hg
          have hkey : key ∈ fields.map Prod.fst := by
            rw [List.mem_map]
            exact ⟨(key, v), hperm.mem_iff.1 hmem, rfl⟩
          exact (jlookup_none_iff fields key).1 hj hkey

end JsonDiffC

namespace JsonDiffC

theorem diffObjLeft_mem (diffF : Nat → JVal → JVal → Option JVal × Nat)
    (ridx : List (String × JVal)) :
    ∀ (lidx : List (String × JVal)) (st : Nat),
      ∀ e ∈ (diffObjLeft diffF st lidx ridx).1,
        ∃ v, (e.1, v) ∈ lidx ∧
          ((index_get ridx e.1 = none ∧ e.2 = create_deletion_array v) ∨
           (∃ w c₀ c₁, index_get ridx e.1 = some w ∧
             diffF c₀ v w = (some e.2, c₁)))
  | [], st => by intro e he; cases he
  | (k, v) :: rest, st => by
      intro e he
      rw [diffObjLeft] at he
      cases hr : index_get ridx k with
      | none =>
          rw [hr] at he
          dsimp only at he
          rcases List.mem_cons.1 he with he | he
          · refine ⟨v, ?_, Or.inl ⟨?_, ?_⟩⟩
            · rw [he]; exact List.mem_cons_self _ _
            · rw [he]; exact hr
            · rw [he]
          · obtain ⟨v', hv', hcase⟩ := diffObjLeft_mem diffF ridx rest st e he
            exact ⟨v', List.mem_cons_of_mem _ hv', hcase⟩
      | some w =>
          rw [hr] at he
          dsimp only at he
          cases hd1 : (diffF st v w).1 with
          | some d =>
              rw [hd1] at he
              dsimp only at he
              rcases List.mem_cons.1 he with he | he
              · refine ⟨v, ?_, Or.inr ⟨w, st, (diffF st v w).2, ?_, ?_⟩⟩
                · rw [he]; exact List.mem_cons_self _ _
                · rw [he]; exact hr
                · rw [he]
                  rw [← hd1]
              · obtain ⟨v', hv', hcase⟩ :=
                  diffObjLeft_mem diffF ridx rest ((diffF st v w).2) e he
                exact ⟨v', List.mem_cons_of_mem _ hv', hcase⟩
          | none =>
              rw [hd1] at he
              dsimp only at he
              obtain ⟨v', hv', hcase⟩ :=
                diffObjLeft_mem diffF ridx rest ((diffF st v w).2) e he
              exact ⟨v', List.mem_cons_of_mem _ hv', hcase⟩

theorem diffObjLeft_del_complete
    (diffF : Nat → JVal → JVal → Option JVal × Nat)
    (ridx : List (String × JVal)) :
    ∀ (lidx : List (String × JVal)) (st : Nat) (k : String) (v : JVal),
      (k, v) ∈ lidx → index_get ridx k = none →
      (k, create_deletion_array v) ∈ (diffObjLeft diffF st lidx ridx).1
  | [], st, k, v, hm, _ => by cases hm
  | (k', v') :: rest, st, k, v, hm, hnone => by
      rw [diffObjLeft]
      rcases List.mem_cons.1 hm with he | he
      · injection he with h1 h2
        rw [← h1, ← h2, hnone]
        dsimp only
        exact List.mem_cons_self _ _
      · cases hr : index_get ridx k' with
        | none =>
            dsimp only
            exact List.mem_cons_of_mem _
              (diffObjLeft_del_complete diffF ridx rest st k v he hnone)
        | some w =>
            dsimp only
            cases hd1 : (diffF st v' w).1 with
            | some d =>
                dsimp only
                exact List.mem_cons_of_mem _
                  (diffObjLeft_del_complete diffF ridx rest
                    ((diffF st v' w).2) k v he hnone)
            | none =>
                dsimp only
                exact diffObjLeft_del_complete diffF ridx rest
                  ((diffF st v' w).2) k v he hnone

theorem diffObjLeft_keys_sublist
    (diffF : Nat → JVal → JVal → Option JVal × Nat)
    (ridx : List (String × JVal)) :
    ∀ (lidx : List (String × JVal)) (st : Nat),
      ((diffObjLeft diffF st lidx ridx).1.map Prod.fst).Sublist
        (lidx.map Prod.fst)
  | [], st => by simp [diffObjLeft]
  | (k, v) :: rest, st => by
      rw [diffObjLeft]
      cases hr : index_get ridx k with
      | none =>
          dsimp only [List.map_cons]
          exact List.Sublist.cons₂ k (diffObjLeft_keys_sublist diffF ridx rest st)
      | some w =>
          dsimp only
          cases hd1 : (diffF st v w).1 with
          | some d =>
              dsimp only [List.map_cons]
              exact List.Sublist.cons₂ k
                (diffObjLeft_keys_sublist diffF ridx rest ((diffF st v w).2))
          | none =>
              dsimp only
              exact List.Sublist.cons k
                (diffObjLeft_keys_sublist diffF ridx rest ((diffF st v w).2))

theorem diffObjAdds_eq (fs gs : List (String × JVal))
    (hnd : (fs.map Prod.fst).Nodup) :
    diffObjAdds (build_key_index gs) (build_key_index fs) =
      specObjAdds fs gs := by
  unfold diffObjAdds specObjAdds
  apply List.filterMap_congr
  intro kv hkv
  rw [index_get_build fs hnd kv.1]
  cases h : jlookup fs kv.1 with
  | none => simp
  | some w => simp

theorem specObjAdds_mem (fs gs : List (String × JVal)) :
    ∀ e ∈ specObjAdds fs gs, ∃ v, (e.1, v) ∈ gs ∧ jlookup fs e.1 = none ∧
      e.2 = create_addition_array v := by
  intro e he
  unfold specObjAdds at he
  rw [List.mem_filterMap] at he
  obtain ⟨kv, hkv, hf⟩ := he
  by_cases h : jlookup fs kv.1 = none
  · rw [if_pos h] at hf
    injection hf with hf
    refine ⟨kv.2, ?_, ?_, ?_⟩
    · rw [← hf]
      exact (sortBy_perm _ gs).mem_iff.1 hkv
    · rw [← hf]
      exact h
    · rw [← hf]
  · rw [if_neg h] at hf
    cases hf

theorem specObjAdds_complete (fs gs : List (String × JVal)) (k : String)
    (v : JVal) (hkv : (k, v) ∈ gs) (hnone : jlookup fs k = none) :
    (k, create_addition_array v) ∈ specObjAdds fs gs := by
  unfold specObjAdds
  rw [List.mem_filterMap]
  exact ⟨(k, v), (sortBy_perm _ gs).mem_iff.2 hkv, by rw [if_pos hnone]⟩

theorem specObjAdds_keys_sublist (fs : List (String × JVal)) :
    ∀ l : List (String × JVal),
      ((l.filterMap (fun kv =>
          if jlookup fs kv.1 = none
          then some (kv.1, create_addition_array kv.2) else none)).map
        Prod.fst).Sublist (l.map Prod.fst)
  | [] => by simp
  | kv :: l => by
      rw [List.filterMap_cons]
      by_cases h : jlookup fs kv.1 = none
      · rw [if_pos h]
        dsimp only [List.map_cons]
        exact List.Sublist.cons₂ kv.1 (specObjAdds_keys_sublist fs l)
      · rw [if_neg h]
        exact List.Sublist.cons kv.1 (specObjAdds_keys_sublist fs l)

theorem diffObjLeft_sub_complete
    (diffF : Nat → JVal → JVal → Option JVal × Nat)
    (ridx : List (String × JVal)) :
    ∀ (lidx : List (String × JVal)) (st : Nat) (k : String) (v w : JVal),
      (k, v) ∈ lidx → index_get ridx k = some w →
      (∀ c₀, (diffF c₀ v w).1 ≠ none) →
      ∃ d, (k, d) ∈ (diffObjLeft diffF st lidx ridx).1 ∧
        ∃ c₀ c₁, diffF c₀ v w = (some d, c₁)
  | [], st, k, v, w, hm, _, _ => by cases hm
  | (k', v') :: rest, st, k, v, w, hm, hsome, hnn => by
      rw [diffObjLeft]
      rcases List.mem_cons.1 hm with he | he
      · injection he with h1 h2
        subst h1
        subst h2
        rw [hsome]
        dsimp only
        cases hd1 : (diffF st v w).1 with
        | none => exact absurd hd1 (hnn st)
        | some d =>
            dsimp only
            refine ⟨d, List.mem_cons_self _ _, st, (diffF st v w).2, ?_⟩
            rw [← hd1]
      · cases hr : index_get ridx k' with
        | none =>
            dsimp only
            obtain ⟨d, hd, hex⟩ := diffObjLeft_sub_complete diffF ridx rest
              st k v w he hsome hnn
            exact ⟨d, List.mem_cons_of_mem _ hd, hex⟩
        | some w2 =>
            dsimp only
            cases hd1 : (diffF st v' w2).1 with
            | some d2 =>
                dsimp only
                obtain ⟨d, hd, hex⟩ := diffObjLeft_sub_complete diffF ridx
                  rest ((diffF st v' w2).2) k v w he hsome hnn
                exact ⟨d, List.mem_cons_of_mem _ hd, hex⟩
            | none =>
                dsimp only
                exact diffObjLeft_sub_complete diffF ridx rest
                  ((diffF st v' w2).2) k v w he hsome hnn

end JsonDiffC

namespace JsonDiffC

/-- C4 (amended): for objects with pairwise-distinct keys, below the depth
guard and past the equality fast path, the object branch of do_json_diff
emits exactly the claimed per-key content — a deletion entry for each left
key absent from the right object, the nested diff for keys on both sides
whenever it is non-null (soundness for every emitted entry, completeness
whenever the nested diff is non-null at every counter state), and an
addition entry for each right-only key — with
the left-derived block first and the additions last; but both blocks appear
in sorted strcmp key order (build_key_index qsorts both indexes,
src/src/json_diff.c:68, and both emission loops walk the sorted indexes,
src/src/json_diff.c:788-819), not in the insertion order of the inputs, and
the no-change sentinel is returned exactly when no entry is emitted. -/
theorem C4_object_diff_sorted_content
    (diffF : Nat → JVal → JVal → Option JVal × Nat) (st : Nat)
    (strict : Bool) (fs gs : List (String × JVal))
    (hguard : st + 1 ≤ MAX_JSON_DEPTH)
    (hneq : (jBEq (.obj fs) (.obj gs) ||
      json_value_equal strict (.obj fs) (.obj gs)) = false)
    (hfs : (fs.map Prod.fst).Nodup) (hgs : (gs.map Prod.fst).Nodup) :
    ∃ dels c₂,
      do_json_diff diffF st (.obj fs) (.obj gs) strict =
        (if (dels ++ specObjAdds fs gs).isEmpty then none
         else some (.obj (dels ++ specObjAdds fs gs)), c₂) ∧
      (∀ e ∈ dels, ∃ v, (e.1, v) ∈ fs ∧
        ((jlookup gs e.1 = none ∧ e.2 = create_deletion_array v) ∨
         (∃ w c₀ c₁, jlookup gs e.1 = some w ∧
           diffF c₀ v w = (some e.2, c₁)))) ∧
      (∀ k v, (k, v) ∈ fs → jlookup gs k = none →
        (k, create_deletion_array v) ∈ dels) ∧
      (∀ k v w, (k, v) ∈ fs → jlookup gs k = some w →
        (∀ c₀, (diffF c₀ v w).1 ≠ none) →
        ∃ d, (k, d) ∈ dels ∧ ∃ c₀ c₁, diffF c₀ v w = (some d, c₁)) ∧
      (dels.map Prod.fst).Pairwise (fun a b => cmpStr a b = .lt) ∧
      ((specObjAdds fs gs).map Prod.fst).Pairwise
        (fun a b => cmpStr a b = .lt) ∧
      (∀ e ∈ specObjAdds fs gs, ∃ v, (e.1, v) ∈ gs ∧
        jlookup fs e.1 = none ∧ e.2 = create_addition_array v) ∧
      (∀ k v, (k, v) ∈ gs → jlookup fs k = none →
        (k, create_addition_array v) ∈ specObjAdds fs gs) := by
  refine ⟨(diffObjLeft diffF (st + 1) (build_key_index fs)
      (build_key_index gs)).1,
    (diffObjLeft diffF (st + 1) (build_key_index fs)
      (build_key_index gs)).2 - 1, ?_, ?_, ?_, ?_, ?_, ?_, ?_, ?_⟩
  · simp only [do_json_diff]
    rw [if_neg (show ¬ MAX_JSON_DEPTH < st + 1 by omega), hneq]
    rw [if_neg (show ¬ false = true by simp)]
    rw [diffObjAdds_eq fs gs hfs]
  · intro e he
    obtain ⟨v, hv, hcase⟩ :=
      diffObjLeft_mem diffF (build_key_index gs) (build_key_index fs)
        (st + 1) e he
    refine ⟨v, (sortBy_perm _ fs).mem_iff.1 hv, ?_⟩
    rwa [index_get_build gs hgs] at hcase
  · intro k v hkv hnone
    exact diffObjLeft_del_complete diffF (build_key_index gs)
      (build_key_index fs) (st + 1) k v ((sortBy_perm _ fs).mem_iff.2 hkv)
      (by rw [index_get_build gs hgs]; exact hnone)
  · intro k v w hkv hw hnn
    exact diffObjLeft_sub_complete diffF (build_key_index gs)
      (build_key_index fs) (st + 1) k v w
      ((sortBy_perm _ fs).mem_iff.2 hkv)
      (by rw [index_get_build gs hgs]; exact hw) hnn
  · have hsub := diffObjLeft_keys_sublist diffF (build_key_index gs)
      (build_key_index fs) (st + 1)
    have hpw : ((build_key_index fs).map Prod.fst).Pairwise
        (fun a b => cmpStr a b = .lt) :=
      List.pairwise_map.2 (build_key_index_sorted_lt fs hfs)
    exact hpw.sublist hsub
  · have hsub := specObjAdds_keys_sublist fs (build_key_index gs)
    have hpw : ((build_key_index gs).map Prod.fst).Pairwise
        (fun a b => cmpStr a b = .lt) :=
      List.pairwise_map.2 (build_key_index_sorted_lt gs hgs)
    exact hpw.sublist hsub
  · exact specObjAdds_mem fs gs
  · intro k v hkv hnone
    exact specObjAdds_complete fs gs k v hkv hnone

theorem C4_object_diff_sorted_content_witness :
    (0 + 1 ≤ MAX_JSON_DEPTH) ∧
    ((jBEq (.obj [("b", JVal.num 1)]) (.obj [("a", JVal.num 2)]) ||
      json_value_equal true (.obj [("b", JVal.num 1)])
        (.obj [("a", JVal.num 2)])) = false) ∧
    (([("b", JVal.num 1)].map Prod.fst).Nodup) ∧
    (([("a", JVal.num 2)].map Prod.fst).Nodup) ∧
    (∃ dels c₂,
      do_json_diff (fun st _ _ => (none, st)) 0 (.obj [("b", JVal.num 1)])
          (.obj [("a", JVal.num 2)]) true =
        (if (dels ++ specObjAdds [("b", JVal.num 1)]
              [("a", JVal.num 2)]).isEmpty then none
         else some (.obj (dels ++ specObjAdds [("b", JVal.num 1)]
              [("a", JVal.num 2)])), c₂)) := by
  refine ⟨by decide, by decide, by decide, by decide, ?_⟩
  obtain ⟨dels, c₂, h1, -, -, -, -, -, -, -⟩ :=
    C4_object_diff_sorted_content (fun st _ _ => (none, st)) 0 true
      [("b", JVal.num 1)] [("a", JVal.num 2)]
      (by decide) (by decide) (by decide) (by decide)
  exact ⟨dels, c₂, h1⟩

/-- C4 counterexample to the ordering half of the claim: the object delta of
\x7b"b":1,"a":2\x7d against \x7b\x7d lists its keys as ["a","b"] — strcmp-sorted order —
whereas the claim's insertion order would list ["b","a"]. -/
theorem C4_object_keys_sorted_not_insertion_order :
    (json_diff 5 0 (.obj [("b", JVal.num 1), ("a", JVal.num 2)])
        (.obj []) true).1 =
      some (.obj [("a", .arr [.num 2, .num 0, .num 0]),
                  ("b", .arr [.num 1, .num 0, .num 0])]) ∧
    some (JVal.obj [("a", .arr [.num 2, .num 0, .num 0]),
                    ("b", .arr [.num 1, .num 0, .num 0])]) ≠
      some (JVal.obj [("b", .arr [.num 1, .num 0, .num 0]),
                      ("a", .arr [.num 2, .num 0, .num 0])]) := by decide

end JsonDiffC

namespace JsonDiffC

theorem do_json_diff_fast_none
    (diffF : Nat → JVal → JVal → Option JVal × Nat) (st : Nat)
    (l r : JVal) (strict : Bool)
    (h : (jBEq l r || json_value_equal strict l r) = true) :
    (do_json_diff diffF st l r strict).1 = none := by
  simp only [do_json_diff]
  by_cases hg : MAX_JSON_DEPTH < st + 1
  · rw [if_pos hg]
  · rw [if_neg hg, h, if_pos rfl]

/-- C2 (amended): the forward half of the consistency claim and the
reflexivity claim hold unconditionally — if json_value_equal accepts the
pair the differ returns the no-change sentinel (do_json_diff's fast path,
src/src/json_diff.c:758-760, and every guard exit also yield NULL), and
diffing a value against itself always yields the sentinel (the `left ==
right` pointer fast path).  The backward half is refuted separately: the
differ can return the sentinel for pairs json_value_equal rejects. -/
theorem C2_equal_implies_diff_none_and_refl :
    (∀ (strict : Bool) (fuel st : Nat) (l r : JVal),
       json_value_equal strict l r = true →
       (json_diff fuel st l r strict).1 = none) ∧
    (∀ (strict : Bool) (fuel st : Nat) (j : JVal),
       (json_diff fuel st j j strict).1 = none) := by
  have hmain : ∀ (strict : Bool) (fuel st : Nat) (l r : JVal),
      (jBEq l r || json_value_equal strict l r) = true →
      (json_diff fuel st l r strict).1 = none := by
    intro strict fuel st l r hor
    cases fuel with
    | zero => rfl
    | succ fuel =>
        rw [json_diff]
        by_cases hg : MAX_JSON_DEPTH < st + 1
        · rw [if_pos hg]
        · rw [if_neg hg]
          cases hdo : do_json_diff
              (fun st2 l2 r2 => json_diff fuel st2 l2 r2 strict)
              (st + 1) l r strict with
          | mk res c' =>
              have hres := do_json_diff_fast_none
                (fun st2 l2 r2 => json_diff fuel st2 l2 r2 strict)
                (st + 1) l r strict hor
              rw [hdo] at hres
              exact hres
  constructor
  · intro strict fuel st l r heq
    exact hmain strict fuel st l r (by rw [heq, Bool.or_true])
  · intro strict fuel st j
    exact hmain strict fuel st j j (by rw [(jBEq_iff j j).2 rfl, Bool.true_or])

theorem C2_equal_implies_diff_none_and_refl_witness :
    json_value_equal true (JVal.num 1) (JVal.num 1) = true ∧
    (json_diff 3 0 (JVal.num 1) (JVal.num 1) true).1 = none :=
  ⟨by decide,
   C2_equal_implies_diff_none_and_refl.1 true 3 0 (JVal.num 1) (JVal.num 1)
     (by decide)⟩

/-- A chain of single-member objects: `deepObj n leaf` nests `leaf` under
`n` levels of `\x7b"a": ...\x7d`. -/
def deepObj : Nat → JVal → JVal
  | 0, leaf => leaf
  | n + 1, leaf => .obj [("a", deepObj n leaf)]

theorem deep_jBEq : ∀ m : Nat,
    jBEq (deepObj m (.num 1)) (deepObj m (.num 2)) = false
  | 0 => by decide
  | m + 1 => by
      rw [deepObj, deepObj]
      simp [jBEq, jBEqFl, deep_jBEq m]

theorem deep_jeq : ∀ m : Nat,
    json_value_equal true (deepObj m (.num 1)) (deepObj m (.num 2)) = false
  | 0 => by decide
  | m + 1 => by
      have hb := deep_jBEq (m + 1)
      rw [deepObj] at hb ⊢
      rw [deepObj] at hb ⊢
      rw [json_value_equal, hb]
      rw [if_neg (by simp)]
      simp [jeqFl, jlookup, deep_jeq m]

theorem deep_diff_guard : ∀ (m fuel st : Nat), 1024 ≤ st + 2 * m →
    st % 2 = 0 → m + 1 ≤ fuel →
    json_diff fuel st (deepObj m (.num 1)) (deepObj m (.num 2)) true =
      (none, st)
  | m, 0, st, h1, h2, h3 => by omega
  | 0, fuel + 1, st, h1, h2, h3 => by
      rw [json_diff]
      rw [if_pos (show MAX_JSON_DEPTH < st + 1 by
        unfold MAX_JSON_DEPTH; omega)]
      simp
  | m + 1, fuel + 1, st, h1, h2, h3 => by
      by_cases hg : MAX_JSON_DEPTH < st + 1
      · rw [json_diff, if_pos hg]
        simp
      · have hst : st ≤ 1022 := by
          unfold MAX_JSON_DEPTH at hg
          omega
        rw [json_diff, if_neg hg]
        have hdo : do_json_diff
            (fun st2 l2 r2 => json_diff fuel st2 l2 r2 true) (st + 1)
            (deepObj (m + 1) (.num 1)) (deepObj (m + 1) (.num 2)) true =
            (none, st + 1) := by
          simp only [do_json_diff]
          rw [if_neg (show ¬ MAX_JSON_DEPTH < st + 1 + 1 by
            unfold MAX_JSON_DEPTH; omega)]
          rw [deep_jBEq (m + 1), deep_jeq (m + 1)]
          rw [if_neg (by simp)]
          rw [deepObj, deepObj]
          dsimp only
          have hbk1 : build_key_index [("a", deepObj m (.num 1))] =
              [("a", deepObj m (.num 1))] := rfl
          have hbk2 : build_key_index [("a", deepObj m (.num 2))] =
              [("a", deepObj m (.num 2))] := rfl
          rw [hbk1, hbk2, diffObjLeft]
          have hig : index_get [("a", deepObj m (.num 2))] "a" =
              some (deepObj m (.num 2)) := by
            have hj := index_get_build [("a", deepObj m (.num 2))]
              (by simp) "a"
            rw [hbk2] at hj
            rw [hj]
            simp [jlookup]
          rw [hig]
          dsimp only
          have hih := deep_diff_guard m fuel (st + 1 + 1) (by omega)
            (by omega) (by omega)
          rw [hih]
          have higx : index_get [("a", deepObj m (.num 1))] "a" =
              some (deepObj m (.num 1)) := by
            have hj := index_get_build [("a", deepObj m (.num 1))]
              (by simp) "a"
            rw [hbk1] at hj
            rw [hj]
            simp [jlookup]
          have hadds : diffObjAdds [("a", deepObj m (.num 2))]
              [("a", deepObj m (.num 1))] = [] := by
            simp [diffObjAdds, higx]
          simp only [diffObjLeft, hadds]
          simp
        rw [hdo]
        simp

/-- C2 counterexample to the backward half: at 513 levels of nesting the
recursion depth guard (json_diff and do_json_diff each push the thread-local
counter once per level and bail out past MAX_JSON_DEPTH = 1024,
src/src/json_diff.c:751-753 and 1210-1214) makes the nested diff at the
deepest level return NULL, so every enclosing object branch sees no changes
and json_diff returns the no-change sentinel for two values that differ at
the leaf; json_value_equal has no depth guard, walks down and rejects the
pair — equal(j1, j2) and diff(j1, j2).is_none() disagree. -/
theorem C2_diff_none_but_not_equal :
    (json_diff 600 0 (deepObj 513 (.num 1)) (deepObj 513 (.num 2)) true).1 =
      none ∧
    json_value_equal true (deepObj 513 (.num 1)) (deepObj 513 (.num 2)) =
      false := by
  constructor
  · rw [deep_diff_guard 513 600 0 (by omega) (by omega) (by omega)]
  · exact deep_jeq 513

end JsonDiffC
